import Mathlib

/-!
# Verification of the Anti-Virus game solver (`antivirus_solver.py`)

Shallow embedding of the solver's data model and operations:

* Locations (cells) are natural numbers `0..25`; off-board is `Option.none`.
* A tile is a list of cells; a game position is a list of tiles.
* The board topology is the `resulting_locs` table: for each of the four move
  directions, a list of 26 entries, each `Option Nat` (`none` = off-board).
* `set_holes` replaces every transition *targeting* a hole by off-board.
* `change_pos` moves one tile and cascades the move over overlapping tiles
  ("block move"); it is embedded with an explicit fuel parameter (the Python
  `while` loop), and a fuel bound sufficient for boards built by `set_holes`
  from the initial topology is proved below.
-/

namespace Antivirus

/-- The four move directions, `"nw"`, `"ne"`, `"sw"`, `"se"` in the source. -/
inductive Move where
  | nw | ne | sw | se
deriving DecidableEq, Repr, Fintype

/-- A tile: a tuple of board locations. -/
abbrev Tile := List Nat

/-- A game position: a list of tiles. -/
abbrev GPos := List Tile

/-- `resulting_locs["nw"]` as written in `Antivirus.__init__`. -/
def nw_locs : List (Option Nat) :=
  [none, some 0, none, none, none, some 1, some 2, some 3, none, some 5,
   some 6, some 7, some 8, some 9, some 10, none, some 12, some 13, some 14,
   some 15, some 16, some 17, none, some 19, some 20, some 21]

/-- `resulting_locs["ne"]` as written in `Antivirus.__init__`. -/
def ne_locs : List (Option Nat) :=
  [none, none, none, none, none, some 2, some 3, some 4, some 5, some 6,
   some 7, none, some 9, some 10, some 11, some 12, some 13, some 14, none,
   some 16, some 17, some 18, some 19, some 20, some 21, none]

/-- `resulting_locs["sw"]` as written in `Antivirus.__init__`. -/
def sw_locs : List (Option Nat) :=
  [none, none, some 5, some 6, some 7, some 8, some 9, some 10, none,
   some 12, some 13, some 14, some 15, some 16, some 17, none, some 19,
   some 20, some 21, some 22, some 23, some 24, none, none, none, none]

/-- `resulting_locs["se"]` as written in `Antivirus.__init__`. -/
def se_locs : List (Option Nat) :=
  [some 1, some 5, some 6, some 7, none, some 9, some 10, some 11, some 12,
   some 13, some 14, none, some 16, some 17, some 18, some 19, some 20,
   some 21, none, some 23, some 24, some 25, none, none, none, none]

/-- The initial `resulting_locs` table (before any holes are set). -/
def resulting_locs0 : Move → List (Option Nat)
  | .nw => nw_locs
  | .ne => ne_locs
  | .sw => sw_locs
  | .se => se_locs

/-- The mutable state of an `Antivirus` instance that the move engine reads:
the list of holes and the (hole-narrowed) `resulting_locs` table. -/
structure Board where
  holes : List Nat
  resulting_locs : Move → List (Option Nat)

/-- Replacing one hole in one `resulting_locs` row:
`[None if i==hole else i for i in self.resulting_locs[move]]`. -/
def hole_out (hole : Nat) (row : List (Option Nat)) : List (Option Nat) :=
  row.map (fun i => if i = some hole then none else i)

/-- `Antivirus.set_holes`: record the holes and, for every direction,
replace each transition targeting a hole by off-board. -/
def set_holes (b : Board) (locations : List Nat) : Board :=
  { holes := b.holes ++ locations,
    resulting_locs := fun mv =>
      locations.foldl (fun row hole => hole_out hole row) (b.resulting_locs mv) }

/-- A fresh `Antivirus()` instance: no holes, initial topology. -/
def antivirus_init : Board := ⟨[], resulting_locs0⟩

/-- A board configured by a single `set_holes` call, as in the scripts. -/
def mkBoard (hs : List Nat) : Board := set_holes antivirus_init hs

/-- `resulting_cell(d, c)`: entry `c` of `resulting_locs[d]`
(off-board for out-of-range indices). -/
def resulting_cell (b : Board) (mv : Move) (c : Nat) : Option Nat :=
  (b.resulting_locs mv).getD c none

/-! ## Validity checks (`check_tile`, `check_overlaps`, `check_initial_position`) -/

/-- `Antivirus.check_tile`: a tile is valid when none of its cells is a hole
(the `i is None` test of the source cannot fire on integer cells). -/
def check_tile (b : Board) (tile : Tile) : Bool :=
  !(tile.any (fun i => decide (i ∈ b.holes)))

/-- `any(j==i for i in ref_tile for j in tile)`. -/
def overlap_tiles (ref_tile tile : Tile) : Bool :=
  ref_tile.any (fun i => tile.any (fun j => j = i))

/-- `Antivirus.check_overlaps`: indices of the tiles of `pos` that overlap
with the tile of index `ref_tix`, in increasing order. -/
def check_overlaps (pos : GPos) (ref_tix : Nat) : List Nat :=
  (List.range pos.length).filter
    (fun tix => decide (tix ≠ ref_tix) &&
      overlap_tiles (pos.getD ref_tix []) (pos.getD tix []))

/-- `Antivirus.check_initial_position`: every tile passes `check_tile` and has
no overlaps. -/
def check_initial_position (b : Board) (pos : GPos) : Bool :=
  (List.range pos.length).all
    (fun tix => check_tile b (pos.getD tix []) && (check_overlaps pos tix).isEmpty)

/-- The Position invariant of the specification: every cell of every tile is
an on-board cell (`< 26`), no cell is a registered hole, and no two distinct
tiles share a cell. -/
def pos_invariant (b : Board) (pos : GPos) : Prop :=
  (∀ t ∈ pos, ∀ c ∈ t, c < 26 ∧ c ∉ b.holes) ∧
  ∀ i < pos.length, ∀ j < pos.length, i ≠ j →
    ∀ c ∈ pos.getD i [], c ∉ pos.getD j []

instance (b : Board) (pos : GPos) : Decidable (pos_invariant b pos) := by
  unfold pos_invariant; infer_instance

/-! ## The move engine (`change_pos`) -/

/-- One tile translated through a `resulting_locs` row:
`tuple(res_locs[i] for i in pos[tix])`. -/
def move_tile (row : List (Option Nat)) (t : Tile) : List (Option Nat) :=
  t.map (fun i => row.getD i none)

/-- The `while len(to_move) > 0` loop of `Antivirus.change_pos`, with an
explicit fuel parameter (`none` = out of fuel; a sufficient fuel bound is
proved below).  State: current position, queue `to_move` of tiles to move
(FIFO), and the running `block_size`.  Result `(None, 1)` encodes a failed
move, `(pos, block_size)` a successful one. -/
def change_pos_aux (b : Board) (mv : Move) :
    Nat → GPos → List Nat → Nat → Option (Option GPos × Nat)
  | 0, _, _, _ => none
  | _ + 1, pos, [], block_size => some (some pos, block_size)
  | fuel + 1, pos, tix :: rest, block_size =>
    let moved := move_tile (b.resulting_locs mv) (pos.getD tix [])
    if moved.any (fun i => i.isNone) then some (none, 1)
    else
      let pos' := pos.set tix moved.reduceOption
      change_pos_aux b mv fuel pos' (rest ++ check_overlaps pos' tix) (block_size + 1)

/-- Total number of cells of a position. -/
def cell_count (pos : GPos) : Nat := (pos.map List.length).sum

/-- Fuel bound for `change_pos_aux`, proved sufficient below for boards built
by `set_holes` from the initial topology. -/
def change_pos_fuel (pos : GPos) : Nat := 27 * cell_count pos * (pos.length + 1) + 2

/-- `Antivirus.change_pos`: move tile `tix` of `pos` in direction `mv`,
propagating the move through overlapping tiles (block move).  Returns the
updated position (or `none` on failure) and the block size. -/
def change_pos (b : Board) (pos : GPos) (tix : Nat) (mv : Move) :
    Option GPos × Nat :=
  (change_pos_aux b mv (change_pos_fuel pos) pos [tix] 0).getD (none, 1)

/-- Number of steps a cell can make in direction `mv` on the initial topology
before falling off-board (computed with fuel 27 > board size). -/
def rank_aux : Nat → Move → Nat → Nat
  | 0, _, _ => 0
  | fuel + 1, mv, c =>
    match resulting_cell antivirus_init mv c with
    | none => 0
    | some c' => rank_aux fuel mv c' + 1

/-- Rank of a cell: termination measure for the block-move cascade. -/
def brank (mv : Move) (c : Nat) : Nat := rank_aux 27 mv c

/-- Sum of cell ranks of a tile. -/
def tile_rank (mv : Move) (t : Tile) : Nat := (t.map (brank mv)).sum

/-- Sum of cell ranks of a position. -/
def pos_rank (mv : Move) (pos : GPos) : Nat := (pos.map (tile_rank mv)).sum

/-- A board whose topology is a restriction of the initial one (true of every
board produced by `set_holes` calls from `Antivirus.__init__`). -/
def base_compatible (b : Board) : Prop :=
  ∀ mv c x, resulting_cell b mv c = some x → resulting_cell antivirus_init mv c = some x

/-- Tile indices whose cell-sets differ between two positions. -/
def changed_indices (pos p : GPos) : List Nat :=
  (List.range pos.length).filter (fun i => decide (pos.getD i [] ≠ p.getD i []))

/-! ## Heap-level model of `change_pos` (for the aliasing/frame property)

Python lists are mutable references.  To state that `change_pos` never mutates
the caller's position we model a heap of position lists explicitly: the local
variable `pos` of `change_pos` is an index into the heap, the statement
`pos = pos.copy()` allocates a fresh list at the end of the heap, and each
assignment `pos[tix] = ...` writes through that index. -/

/-- The loop of `change_pos`, operating on a heap `H` of position lists with
the local `pos` bound to heap index `r`. -/
def change_pos_heap_aux (b : Board) (mv : Move) :
    Nat → List GPos → Nat → List Nat → Nat →
      Option (List GPos × (Option GPos × Nat))
  | 0, _, _, _, _ => none
  | _ + 1, heap, r, [], block_size => some (heap, (some (heap.getD r []), block_size))
  | fuel + 1, heap, r, tix :: rest, block_size =>
    let pos := heap.getD r []
    let moved := move_tile (b.resulting_locs mv) (pos.getD tix [])
    if moved.any (fun i => i.isNone) then some (heap, (none, 1))
    else
      let heap' := heap.set r (pos.set tix moved.reduceOption)
      change_pos_heap_aux b mv fuel heap' r
        (rest ++ check_overlaps (heap'.getD r []) tix) (block_size + 1)

/-- `change_pos` at heap level: the caller passes (a reference to) the list at
index `caller`; the first statement `pos = pos.copy()` allocates a fresh copy
at index `H.length`, and the loop writes only through that fresh index. -/
def change_pos_heap (b : Board) (heap : List GPos) (caller : Nat) (tix : Nat)
    (mv : Move) : Option (List GPos × (Option GPos × Nat)) :=
  let heap1 := heap ++ [heap.getD caller []]
  change_pos_heap_aux b mv (change_pos_fuel (heap.getD caller []))
    heap1 heap.length [tix] 0

/-! ## The BFS solver (`solve`) and path reconstruction (`shortest_path`) -/

/-- `father_info` stored for each visited position: the surrogate
`("start", 0, "start")` for the root, or `(parent position, tix, move)`. -/
inductive Father where
  | start
  | node (pos : GPos) (tix : Nat) (mv : Move)
deriving DecidableEq

/-- `self.visited_tree`: a map position ↦ father info (modelled as an
association list; keys are inserted at most once by `solve`). -/
abbrev VisitedTree := List (GPos × Father)

/-- `self.visited_tree.get(tuple(pos))`. -/
def vtGet : VisitedTree → GPos → Option Father
  | [], _ => none
  | (q, f) :: rest, p => if q = p then some f else vtGet rest p

instance : DecidableEq (Bool × VisitedTree × Option GPos) := by
  intro x y
  have h1 : DecidableEq (VisitedTree × Option GPos) := by infer_instance
  exact @instDecidableEqProd _ _ _ h1 x y

/-- A `to_explore` queue entry: `(pos, waiting_time, father_info, distance)`. -/
abbrev QEntry := GPos × Nat × Father × Nat

/-- The fixed direction order of the solver loops. -/
def moves_order : List Move := [.nw, .ne, .sw, .se]

/-- `[prev_tix] + list(range(prev_tix)) + list(range(prev_tix+1, len(pos)))`. -/
def tix_order (prev n : Nat) : List Nat :=
  prev :: (List.range prev ++ (List.range n).drop (prev + 1))

/-- `father_info[1]`: the previously moved tile (0 for the root marker). -/
def father_tix : Father → Nat
  | .start => 0
  | .node _ tix _ => tix

/-- The successor entries appended to `to_explore` when the solver settles
`pos` (with visited tree `vt` *after* inserting `pos`). -/
def succ_entries (b : Board) (vt : VisitedTree) (pos : GPos) (prev dist : Nat) :
    List QEntry :=
  (tix_order prev pos.length).flatMap (fun tix =>
    moves_order.filterMap (fun mv =>
      match change_pos b pos tix mv with
      | (some new_pos, block_size) =>
        if (vtGet vt new_pos).isNone then
          some (new_pos, block_size, Father.node pos tix mv, dist + 1)
        else none
      | (none, _) => none))

/-- Python truthiness of `distance_max and distance > distance_max`
(`None` and `0` are both falsy). -/
def dmax_truthy : Option Nat → Nat → Bool
  | none, _ => false
  | some dm, dist => if dm = 0 then false else decide (dist > dm)

/-- `stopping_criterion and stopping_criterion(pos)` for an optional
predicate (`None` = never stop). -/
def sc_check : Option (GPos → Bool) → GPos → Bool
  | none, _ => false
  | some f, pos => f pos

/-- The `while len(to_explore) > 0` loop of `Antivirus.solve`, with explicit
fuel.  State: queue, visited tree, `last_pos`.  Returns the solver result
together with the final visited tree and `last_pos`. -/
def solve_aux (b : Board) (sc : Option (GPos → Bool)) (dmax : Option Nat)
    (pb : Bool) :
    Nat → List QEntry → VisitedTree → Option GPos →
      Option (Bool × VisitedTree × Option GPos)
  | 0, _, _, _ => none
  | _ + 1, [], vt, lp => some (false, vt, lp)
  | fuel + 1, (pos, w, f, dist) :: rest, vt, lp =>
    if dmax_truthy dmax dist then some (false, vt, lp)
    else if pb && decide (w > 1) then
      solve_aux b sc dmax pb fuel (rest ++ [(pos, w - 1, f, dist + 1)]) vt lp
    else if (vtGet vt pos).isSome then
      solve_aux b sc dmax pb fuel rest vt lp
    else
      let vt' := (pos, f) :: vt
      if sc_check sc pos then some (true, vt', some pos)
      else
        solve_aux b sc dmax pb fuel
          (rest ++ succ_entries b vt' pos (father_tix f) dist) vt' (some pos)

/-- `Antivirus.solve` from a given initial position, custom stopping
criterion, optional distance bound, and `penalize_blocks` flag. -/
def solve (b : Board) (sc : Option (GPos → Bool)) (dmax : Option Nat)
    (pb : Bool) (start_pos : GPos) (fuel : Nat) :
    Option (Bool × VisitedTree × Option GPos) :=
  solve_aux b sc dmax pb fuel [(start_pos, 1, Father.start, 0)] [] none

/-- One reconstructed path entry `(pos, tix, move)`; the terminal entry
carries `(None, None)`. -/
abbrev PathEntry := GPos × Option Nat × Option Move

/-- The `while pos != "start"` loop of `Antivirus.shortest_path`, walking
parent references from `last_pos` back to the root marker. -/
def shortest_path_aux (vt : VisitedTree) :
    Nat → GPos → Option Nat → Option Move → List PathEntry →
      Option (List PathEntry)
  | 0, _, _, _, _ => none
  | fuel + 1, pos, tix, mv, acc =>
    match vtGet vt pos with
    | none => none
    | some Father.start => some ((pos, tix, mv) :: acc)
    | some (Father.node p t m) =>
      shortest_path_aux vt fuel p (some t) (some m) ((pos, tix, mv) :: acc)

/-- `Antivirus.shortest_path`: the root-to-terminal path of
`(position, moved tile, direction)` entries. -/
def shortest_path (vt : VisitedTree) (last_pos : GPos) : Option (List PathEntry) :=
  shortest_path_aux vt (vt.length + 1) last_pos none none []

/-! ## Reachability and well-formedness predicates -/

/-- One legal move: an edge of the implicit game graph, as accepted by
`change_pos` on a valid tile index. -/
def edge_step (b : Board) (p q : GPos) : Prop :=
  ∃ tix < p.length, ∃ mv : Move, (change_pos b p tix mv).1 = some q

/-- `ReachN b p0 n q`: `q` is reachable from `p0` in exactly `n` legal moves. -/
def ReachN (b : Board) (p0 : GPos) : Nat → GPos → Prop
  | 0, q => q = p0
  | n + 1, q => ∃ p, ReachN b p0 n p ∧ edge_step b p q

/-- `Reachable b p0 q`: some move sequence leads from `p0` to `q`. -/
def Reachable (b : Board) (p0 : GPos) (q : GPos) : Prop :=
  ∃ n, ReachN b p0 n q

/-- Parent chains of the visited tree: `VChain b p0 vt q d` means following
father references from `q` reaches the root marker after `d` edges, each one
a genuine `change_pos` edge. -/
inductive VChain (b : Board) (p0 : GPos) (vt : VisitedTree) : GPos → Nat → Prop where
  | root : vtGet vt p0 = some Father.start → VChain b p0 vt p0 0
  | step {p d q t m} : VChain b p0 vt p d →
      vtGet vt q = some (Father.node p t m) →
      t < p.length → (change_pos b p t m).1 = some q →
      VChain b p0 vt q (d + 1)

/-- Structural well-formedness of the visited tree as built by `solve`:
fresh keys, the root entry at the bottom, and every later entry recording a
genuine edge from an earlier-settled parent. -/
def vt_wf (b : Board) (p0 : GPos) : VisitedTree → Prop
  | [] => True
  | (p, f) :: rest =>
    vt_wf b p0 rest ∧ vtGet rest p = none ∧
    (match f with
     | Father.start => p = p0 ∧ rest = []
     | Father.node p' t m =>
       vtGet rest p' ≠ none ∧ t < p'.length ∧ (change_pos b p' t m).1 = some p)

/-- Adjacent path entries are linked by the recorded `(tix, move)` of the
earlier entry. -/
def path_linked (b : Board) : List PathEntry → Prop :=
  List.Chain' (fun e e' => ∃ t m, e.2.1 = some t ∧ e.2.2 = some m ∧
    t < e.1.length ∧ (change_pos b e.1 t m).1 = some e'.1)

/-- Base-26 encoding of a cell list (injective on cell lists of equal length
with all cells `< 26`). -/
def enc_list : List Nat → Nat
  | [] => 0
  | c :: t => c + 26 * enc_list t

/-- All cells of a position, concatenated. -/
def cat_cells (pos : GPos) : List Nat := pos.foldr (fun t acc => t ++ acc) []

/-- Same tile-length profile as the initial position, all cells on-board:
the finite space that bounds the number of settled positions. -/
def shape_ok (p0 pos : GPos) : Prop :=
  pos.map List.length = p0.map List.length ∧ ∀ t ∈ pos, ∀ c ∈ t, c < 26

/-- Keys of the visited tree. -/
def vt_keys (vt : VisitedTree) : List GPos := vt.map Prod.fst

/-- Queue entries after the first settle: positive waiting time and a father
recording a genuine edge from an already-settled position. -/
def q_entry_node_ok (b : Board) (vt : VisitedTree) (e : QEntry) : Prop :=
  1 ≤ e.2.1 ∧ ∃ p' t m, e.2.2.1 = Father.node p' t m ∧ t < p'.length ∧
    (change_pos b p' t m).1 = some e.1 ∧ vtGet vt p' ≠ none

/-- Structural solver invariant: either nothing is settled yet and the queue
is the lone root entry, or the visited tree is well-formed and every queue
entry records an edge from a settled parent. -/
def solver_inv0 (b : Board) (p0 : GPos) (Q : List QEntry) (vt : VisitedTree) :
    Prop :=
  (vt = [] ∧ ∃ w d, 1 ≤ w ∧ Q = [(p0, w, Father.start, d)]) ∨
  (vt ≠ [] ∧ vt_wf b p0 vt ∧ ∀ e ∈ Q, q_entry_node_ok b vt e)

/-- Expansion cover: every successor of a settled position is either settled
or pending in the queue. -/
def covered (b : Board) (Q : List QEntry) (vt : VisitedTree) : Prop :=
  ∀ p, (vtGet vt p).isSome → ∀ s, edge_step b p s →
    (vtGet vt s).isSome ∨ ∃ e ∈ Q, e.1 = s

/-- Sum of the waiting times of a queue (termination potential). -/
def q_weight (Q : List QEntry) : Nat := (Q.map (fun e => e.2.1)).sum

/-- Per-settle weight cap: number of successors times the maximal block
size, plus one. -/
def settle_cap (p0 : GPos) : Nat :=
  4 * (p0.length + 1) * (27 * cell_count p0 * (p0.length + 1) + 2) + 1

/-- Termination potential of a solver state. -/
def term_measure (p0 : GPos) (Q : List QEntry) (vt : VisitedTree) : Nat :=
  q_weight Q + (26 ^ cell_count p0 - vt.length) * settle_cap p0

/-- Shape bookkeeping for termination: queue positions and settled keys have
the initial tile profile, and settled keys are distinct. -/
def shape_inv (p0 : GPos) (Q : List QEntry) (vt : VisitedTree) : Prop :=
  (∀ e ∈ Q, shape_ok p0 e.1) ∧ (∀ p, (vtGet vt p).isSome → shape_ok p0 p) ∧
    (vt_keys vt).Nodup

/-- Distance validity of a queue entry: the recorded distance extends the
father's settled parent chain by one (0 for the root entry). -/
def q_entry_dist (b : Board) (p0 : GPos) (vt : VisitedTree) (e : QEntry) : Prop :=
  (e.2.2.1 = Father.start ∧ e.1 = p0 ∧ e.2.2.2 = 0) ∨
  (∃ p' t m d', e.2.2.1 = Father.node p' t m ∧ VChain b p0 vt p' d' ∧
    e.2.2.2 = d' + 1 ∧ t < p'.length ∧ (change_pos b p' t m).1 = some e.1)

/-- Queue distances are nondecreasing (FIFO discipline). -/
def q_sorted (Q : List QEntry) : Prop :=
  List.Pairwise (fun e1 e2 => e1.2.2.2 ≤ e2.2.2.2) Q

/-- Queue distances stay within one of the front distance. -/
def q_amp (Q : List QEntry) : Prop :=
  ∀ e0 ∈ Q.head?, ∀ e ∈ Q, e.2.2.2 ≤ e0.2.2.2 + 1

/-- Every successor of a settled position (at chain distance `dp`) is settled
or pending with recorded distance `dp + 1`. -/
def expanded_dist (b : Board) (p0 : GPos) (vt : VisitedTree) (Q : List QEntry) :
    Prop :=
  ∀ p dp, VChain b p0 vt p dp → ∀ s, edge_step b p s →
    (vtGet vt s).isSome = true ∨ ∃ w f2, (s, w, f2, dp + 1) ∈ Q

/-- Settled positions were settled at their minimal move distance. -/
def min_settle (b : Board) (p0 : GPos) (vt : VisitedTree) : Prop :=
  ∀ p d n, VChain b p0 vt p d → ReachN b p0 n p → d ≤ n

/-- Full breadth-first invariant of the solver state (for
`penalize_blocks = False`, no distance bound, stopping predicate `stop`). -/
def bfs_inv (b : Board) (p0 : GPos) (stop : GPos → Bool) (Q : List QEntry)
    (vt : VisitedTree) : Prop :=
  (vt = [] ∧ Q = [(p0, 1, Father.start, 0)]) ∨
  (vt ≠ [] ∧ vt_wf b p0 vt ∧ (∀ e ∈ Q, q_entry_node_ok b vt e) ∧
    (∀ e ∈ Q, q_entry_dist b p0 vt e) ∧ q_sorted Q ∧ q_amp Q ∧
    expanded_dist b p0 vt Q ∧ min_settle b p0 vt ∧
    (∀ p, (vtGet vt p).isSome = true → stop p = false))

/-! ## Hopcroft–Tarjan articulation points and forced-passage walk -/

/-- One entry of the depth-first `tree` dict of `Antivirus.hopcroft_tarjan`:
`[parent, other_neighbors, depth, lowpoint]` (the root's trailing `None` is
unused). -/
abbrev TInfo := Option GPos × Option (List GPos) × Nat × Nat

/-- The `tree` dict, as an association list keyed by positions. -/
abbrev HTree := List (GPos × TInfo)

def htGet : HTree → GPos → Option TInfo
  | [], _ => none
  | (q, v) :: rest, p => if q = p then some v else htGet rest p

/-- In-place update of an existing entry (Python list mutation through the
dict). -/
def htSet (tree : HTree) (p : GPos) (v : TInfo) : HTree :=
  tree.map (fun e => if e.1 = p then (p, v) else e)

/-- First-visit neighbor computation: all successful `change_pos` results,
excluding the father's position. -/
def ht_neighbors (b : Board) (pos : GPos) (father : Option GPos) : List GPos :=
  (List.range pos.length).flatMap (fun tix =>
    moves_order.filterMap (fun mv =>
      match change_pos b pos tix mv with
      | (some np, _) =>
        match father with
        | none => some np
        | some f => if f = np then none else some np
      | (none, _) => none))

/-- The `for n_pos in neighbors: ... break / else` scan: process known
neighbors (lowpoint update and articulation marking) until the first unknown
neighbor, which is returned for stacking; `none` means the scan ran to
completion and the top of the stack is popped. -/
def ht_scan (start_pos pos : GPos) :
    List GPos → HTree → List GPos → Option GPos × HTree × List GPos
  | [], tree, ap => (none, tree, ap)
  | n :: rest, tree, ap =>
    match htGet tree n with
    | none => (some n, tree, ap)
    | some ninfo =>
      let info := (htGet tree pos).getD (none, none, 0, 0)
      let l' := min info.2.2.2 (min ninfo.2.2.1 ninfo.2.2.2)
      let tree' := htSet tree pos (info.1, info.2.1, info.2.2.1, l')
      let ninfo' := (htGet tree' n).getD (none, none, 0, 0)
      let ap' := if pos ≠ start_pos ∧ info.2.2.1 ≤ ninfo'.2.2.2
        then pos :: ap else ap
      ht_scan start_pos pos rest tree' ap'

/-- The `while len(to_explore) > 0` stack loop of `Antivirus.hopcroft_tarjan`
(stack top at the head), with explicit fuel. -/
def ht_aux (b : Board) (start_pos : GPos) :
    Nat → List GPos → HTree → List GPos → Option (HTree × List GPos)
  | 0, _, _, _ => none
  | _ + 1, [], tree, ap => some (tree, ap)
  | fuel + 1, pos :: stack, tree, ap =>
    let info := (htGet tree pos).getD (none, none, 0, 0)
    let step :=
      match info.2.1 with
      | none =>
        let ns := ht_neighbors b pos info.1
        (htSet tree pos (info.1, some ns, info.2.2.1, info.2.2.2), ns)
      | some ns => (tree, ns)
    match ht_scan start_pos pos step.2 step.1 ap with
    | (some n, tree2, ap2) =>
      ht_aux b start_pos fuel (n :: pos :: stack)
        ((n, (some pos, none, info.2.2.1 + 1, info.2.2.1 + 1)) :: tree2) ap2
    | (none, tree2, ap2) => ht_aux b start_pos fuel stack tree2 ap2

/-- `Antivirus.hopcroft_tarjan`: returns `(articulation_points, tree)`. -/
def hopcroft_tarjan (b : Board) (start_pos : GPos) (fuel : Nat) :
    Option (List GPos × HTree) :=
  match ht_aux b start_pos fuel [start_pos] [(start_pos, (none, none, 0, 0))] [] with
  | none => none
  | some (tree, ap) => some (ap, tree)

/-- The `while pos != None` walk of
`Antivirus.compute_forced_passage_positions`: follow parent references from
`last_pos`, collecting (front-inserted) the articulation-marked positions. -/
def cfpp_aux (ap : List GPos) (tree : HTree) :
    Nat → Option GPos → List GPos → Option (List GPos)
  | 0, _, _ => none
  | _ + 1, none, acc => some acc
  | fuel + 1, some pos, acc =>
    match htGet tree pos with
    | none => none
    | some info =>
      cfpp_aux ap tree fuel info.1 (if pos ∈ ap then pos :: acc else acc)

/-- `Antivirus.compute_forced_passage_positions` (with `self.last_pos` made
an explicit argument). -/
def compute_forced_passage_positions (b : Board) (start_pos last_pos : GPos)
    (fuel : Nat) : Option (List GPos) :=
  match hopcroft_tarjan b start_pos fuel with
  | none => none
  | some (ap, tree) => cfpp_aux ap tree fuel (some last_pos) []

/-- `HTPath tree cur p`: position `p` lies on the parent chain of the
depth-first tree starting at `cur`. -/
inductive HTPath (tree : HTree) : Option GPos → GPos → Prop where
  | here (p : GPos) : HTPath tree (some p) p
  | up {p q : GPos} {info : TInfo} : htGet tree p = some info →
      HTPath tree info.1 q → HTPath tree (some p) q

/-- The board of the C5 analysis: a walled five-cell region
`{6, 9, 10, 13, 16}` (plus unreachable fragments). -/
def c5B : Board := mkBoard [2, 3, 5, 7, 12, 14, 17, 19, 20]

/-- Stopping predicate of the C5 analysis: the single tile reaches cell 10. -/
def c5stop : GPos → Bool := fun p => decide (p = [[10]])

/-- The visited tree produced by the C5 solve run. -/
def c5vt : VisitedTree :=
  ((solve c5B (some c5stop) none false [[6]] 20).getD (false, [], none)).2.1

/-- The `(articulation_points, tree)` pair of the C5 Hopcroft–Tarjan run. -/
def c5ht : List GPos × HTree := (hopcroft_tarjan c5B [[6]] 40).getD ([], [])

instance : DecidableEq TInfo := by
  intro x y
  have h1 : DecidableEq (Option (List GPos) × Nat × Nat) := by infer_instance
  exact @instDecidableEqProd _ _ _ h1 x y

instance : DecidableEq (List GPos × HTree) := by
  intro x y
  have h1 : DecidableEq HTree := by infer_instance
  exact @instDecidableEqProd _ _ _ h1 x y

/-! ## Basic lemmas on the hole-narrowed topology -/

theorem getD_map_opt (f : Option Nat → Option Nat) (hf : f none = none)
    (row : List (Option Nat)) (c : Nat) :
    (row.map f).getD c none = f (row.getD c none) := by
  induction row generalizing c with
  | nil => simp [hf]
  | cons a t ih =>
    cases c with
    | zero => rfl
    | succ n => exact ih n

theorem getD_hole_out (hole : Nat) (row : List (Option Nat)) (c : Nat) :
    (hole_out hole row).getD c none =
      match row.getD c none with
      | none => none
      | some x => if x = hole then none else some x := by
  unfold hole_out
  rw [getD_map_opt _ (by simp)]
  rcases h : row.getD c none with _ | v
  · rfl
  · by_cases hv : v = hole <;> simp [hv]

/-- Folding `hole_out` over a list of holes: the entry survives iff it was
there initially and is none of the holes. -/
theorem getD_foldl_hole_out (hs : List Nat) (row : List (Option Nat)) (c : Nat) :
    (hs.foldl (fun r hole => hole_out hole r) row).getD c none =
      match row.getD c none with
      | none => none
      | some x => if x ∈ hs then none else some x := by
  induction hs generalizing row with
  | nil =>
    simp only [List.foldl_nil]
    rcases h : row.getD c none with _ | v <;> simp
  | cons h0 hs ih =>
    simp only [List.foldl_cons]
    rw [ih, getD_hole_out]
    rcases h : row.getD c none with _ | v
    · rfl
    · by_cases hv : v = h0
      · subst hv; simp
      · simp only [hv, if_false]
        by_cases hmem : v ∈ hs <;> simp [hmem, hv]

theorem resulting_cell_set_holes (b : Board) (hs : List Nat) (mv : Move) (c : Nat) :
    resulting_cell (set_holes b hs) mv c =
      match resulting_cell b mv c with
      | none => none
      | some x => if x ∈ hs then none else some x := by
  unfold resulting_cell set_holes
  exact getD_foldl_hole_out hs (b.resulting_locs mv) c

/-- On a board built by `set_holes`, every surviving transition comes from the
initial topology. -/
theorem resulting_cell_mkBoard_base {hs : List Nat} {mv : Move} {c x : Nat}
    (h : resulting_cell (mkBoard hs) mv c = some x) :
    resulting_cell antivirus_init mv c = some x := by
  rw [mkBoard, resulting_cell_set_holes] at h
  rcases h0 : resulting_cell antivirus_init mv c with _ | v
  · rw [h0] at h; exact absurd h (by simp)
  · rw [h0] at h
    by_cases hv : v ∈ hs <;> simp [hv] at h <;> simp [h]

/-- On a board built by `set_holes`, no transition targets a hole. -/
theorem resulting_cell_mkBoard_not_hole {hs : List Nat} {mv : Move} {c x : Nat}
    (h : resulting_cell (mkBoard hs) mv c = some x) : x ∉ hs := by
  rw [mkBoard, resulting_cell_set_holes] at h
  rcases h0 : resulting_cell antivirus_init mv c with _ | v
  · rw [h0] at h; exact absurd h (by simp)
  · rw [h0] at h
    by_cases hv : v ∈ hs
    · simp [hv] at h
    · simp [hv] at h; simpa [← h]

theorem getD_eq_none_of_le {row : List (Option Nat)} {c : Nat}
    (h : row.length ≤ c) : row.getD c none = none := by
  induction row generalizing c with
  | nil => rfl
  | cons a t ih =>
    cases c with
    | zero => simp at h
    | succ c => simpa [List.getD] using ih (by simpa using h)

/-- Every target of the initial topology is an on-board cell (`< 26`). -/
theorem resulting_cell_init_lt (mv : Move) (c x : Nat)
    (h : resulting_cell antivirus_init mv c = some x) : x < 26 := by
  by_cases hc : c < 26
  · have hd : ∀ mv : Move, ∀ c, c < 26 →
        (resulting_cell antivirus_init mv c).getD 0 < 26 := by decide
    have := hd mv c hc
    rw [h] at this
    simpa using this
  · exfalso
    have hlen : (antivirus_init.resulting_locs mv).length = 26 := by
      cases mv <;> rfl
    unfold resulting_cell at h
    rw [getD_eq_none_of_le (by omega)] at h
    simp at h

/-- `set_holes` only narrows the topology: any transition surviving a later
`set_holes` call was already present before it. -/
theorem set_holes_narrows {b : Board} {hs : List Nat} {mv : Move} {c x : Nat}
    (h : resulting_cell (set_holes b hs) mv c = some x) :
    resulting_cell b mv c = some x := by
  rw [resulting_cell_set_holes] at h
  rcases h0 : resulting_cell b mv c with _ | v
  · rw [h0] at h; exact absurd h (by simp)
  · rw [h0] at h
    by_cases hv : v ∈ hs <;> simp [hv] at h <;> simp [h]

/-! ## Claim C4 (hole registration) -/

/-- C4 counterexample: registering cell 10 as a hole does *not* make the entry
for cell 10 itself off-board.  `set_holes` replaces transitions *targeting* the
hole, not transitions *from* it: after `set_holes([10])`,
`resulting_locs["nw"][10]` is still `6`. -/
theorem c4_counterexample :
    resulting_cell (set_holes antivirus_init [10]) Move.nw 10 = some 6 ∧
      resulting_cell (set_holes antivirus_init [10]) Move.nw 10 ≠ none := by
  constructor
  · decide
  · decide

/-- C4 (amended): after `set_holes` registers cell `h` as a hole, no entry of
`resulting_locs[d]` *targets* `h` (for every direction `d` and every source
cell `c`), and this remains true after any sequence of further `set_holes`
calls for the lifetime of the board instance. -/
theorem c4_amended_no_transition_targets_hole (b : Board) (hs : List Nat)
    {h : Nat} (hh : h ∈ hs) (mv : Move) (c : Nat) :
    resulting_cell (set_holes b hs) mv c ≠ some h ∧
      ∀ calls : List (List Nat),
        resulting_cell (calls.foldl set_holes (set_holes b hs)) mv c ≠ some h := by
  have base : resulting_cell (set_holes b hs) mv c ≠ some h := by
    intro hc
    rw [resulting_cell_set_holes] at hc
    rcases h0 : resulting_cell b mv c with _ | v
    · rw [h0] at hc; exact absurd hc (by simp)
    · rw [h0] at hc
      by_cases hv : v ∈ hs
      · simp [hv] at hc
      · simp [hv] at hc; exact hv (hc ▸ hh)
  refine ⟨base, ?_⟩
  intro calls
  induction calls using List.reverseRecOn with
  | nil => exact base
  | append_singleton calls hs' ih =>
    intro hc
    rw [List.foldl_append, List.foldl_cons, List.foldl_nil] at hc
    exact ih (set_holes_narrows hc)

/-- Witness for C4 (amended) at a concrete input: hole 10, direction `nw`,
source cell 14 (whose transition targeted 10). -/
theorem c4_witness :
    (10 ∈ [10] ∧
      resulting_cell (set_holes antivirus_init [10]) Move.nw 14 ≠ some 10) :=
  ⟨by decide,
    (c4_amended_no_transition_targets_hole antivirus_init [10] (by decide)
      Move.nw 14).1⟩

/-! ## List helper lemmas -/

theorem getD_set_self {α} (l : List α) (i : Nat) (u : α) (d : α)
    (h : i < l.length) : (l.set i u).getD i d = u := by
  induction l generalizing i with
  | nil => simp at h
  | cons a t ih =>
    cases i with
    | zero => rfl
    | succ n => exact ih n (by simpa using h)

theorem getD_set_ne {α} (l : List α) {i j : Nat} (u : α) (d : α)
    (h : i ≠ j) : (l.set i u).getD j d = l.getD j d := by
  induction l generalizing i j with
  | nil => simp
  | cons a t ih =>
    cases i with
    | zero => cases j with
      | zero => exact absurd rfl h
      | succ m => rfl
    | succ n => cases j with
      | zero => rfl
      | succ m => exact ih (fun hnm => h (by omega))

theorem getD_of_length_le {α} {l : List α} {i : Nat} (d : α)
    (h : l.length ≤ i) : l.getD i d = d := by
  induction l generalizing i with
  | nil => rfl
  | cons a t ih =>
    cases i with
    | zero => simp at h
    | succ n => exact ih (by simpa using h)

/-! ## Unfolding lemmas for `change_pos_aux` -/

theorem change_pos_aux_zero (b : Board) (mv : Move) (pos : GPos)
    (q : List Nat) (bs : Nat) : change_pos_aux b mv 0 pos q bs = none := rfl

theorem change_pos_aux_nil (b : Board) (mv : Move) (fuel : Nat) (pos : GPos)
    (bs : Nat) : change_pos_aux b mv (fuel + 1) pos [] bs = some (some pos, bs) := rfl

theorem change_pos_aux_cons (b : Board) (mv : Move) (fuel : Nat) (pos : GPos)
    (tix : Nat) (rest : List Nat) (bs : Nat) :
    change_pos_aux b mv (fuel + 1) pos (tix :: rest) bs =
      (if (move_tile (b.resulting_locs mv) (pos.getD tix [])).any
            (fun i => i.isNone) then some (none, 1)
       else
         change_pos_aux b mv fuel
           (pos.set tix (move_tile (b.resulting_locs mv) (pos.getD tix [])).reduceOption)
           (rest ++ check_overlaps
             (pos.set tix (move_tile (b.resulting_locs mv) (pos.getD tix [])).reduceOption)
             tix)
           (bs + 1)) := rfl

/-! ## Claim C9: a failed `change_pos` always reports block size 1 -/

theorem change_pos_aux_fail_bs {b : Board} {mv : Move} :
    ∀ {fuel : Nat} {pos : GPos} {q : List Nat} {bs n : Nat},
      change_pos_aux b mv fuel pos q bs = some (none, n) → n = 1 := by
  intro fuel
  induction fuel with
  | zero => intro pos q bs n h; rw [change_pos_aux_zero] at h; cases h
  | succ fuel ih =>
    intro pos q bs n h
    cases q with
    | nil => rw [change_pos_aux_nil] at h; simp at h
    | cons tix rest =>
      rw [change_pos_aux_cons] at h
      by_cases hf : (move_tile (b.resulting_locs mv) (pos.getD tix [])).any
          (fun i => i.isNone) = true
      · rw [if_pos hf] at h
        simp at h
        omega
      · rw [if_neg hf] at h
        exact ih h

/-- C9: whenever `change_pos` fails (some tile of the cascade would step off
the board or onto a hole), the accompanying `block_size` is exactly 1,
regardless of how many tiles were already moved internally. -/
theorem c9_fail_block_size_one (b : Board) (pos : GPos) (tix : Nat) (mv : Move)
    (n : Nat) (h : change_pos b pos tix mv = (none, n)) : n = 1 := by
  unfold change_pos at h
  rcases hr : change_pos_aux b mv (change_pos_fuel pos) pos [tix] 0 with _ | r
  · rw [hr] at h
    simpa using (congrArg Prod.snd h).symm
  · rw [hr] at h
    simp only [Option.getD_some] at h
    rcases r with ⟨p?, m⟩
    cases h
    exact change_pos_aux_fail_bs hr

/-- Witness for C9: a concrete failing move (single tile at the top corner
pushed north-west, off the board). -/
theorem c9_witness : change_pos (mkBoard []) [[0]] 0 Move.nw = (none, 1) ∧ 1 = 1 :=
  ⟨by decide, c9_fail_block_size_one (mkBoard []) [[0]] 0 Move.nw 1 (by decide)⟩

/-! ## Claim C3: `block_size` vs. number of changed tiles -/

/-- C3 counterexample: on the valid position `[(1,2),(5,8),(6,9)]` (no holes),
moving tile 0 south-east succeeds with `block_size = 4`, but only 3 tiles
changed: tile 2 is enqueued twice (it overlaps the new cells of both tile 0
and tile 1) and is therefore moved *twice* within one `change_pos` call. -/
theorem c3_counterexample :
    pos_invariant (mkBoard []) [[1, 2], [5, 8], [6, 9]] ∧
    change_pos (mkBoard []) [[1, 2], [5, 8], [6, 9]] 0 Move.se =
      (some [[5, 6], [9, 12], [14, 17]], 4) ∧
    (changed_indices [[1, 2], [5, 8], [6, 9]] [[5, 6], [9, 12], [14, 17]]).length = 3 ∧
    (4 : Nat) ≠ 3 := by
  refine ⟨by decide, by decide, by decide, by decide⟩

theorem changed_indices_le_block {b : Board} {mv : Move} :
    ∀ {fuel : Nat} {pos : GPos} {q : List Nat} {bs : Nat} {p : GPos} {n : Nat},
      change_pos_aux b mv fuel pos q bs = some (some p, n) →
      (changed_indices pos p).length + bs ≤ n := by
  intro fuel
  induction fuel with
  | zero => intro pos q bs p n h; rw [change_pos_aux_zero] at h; cases h
  | succ fuel ih =>
    intro pos q bs p n h
    cases q with
    | nil =>
      rw [change_pos_aux_nil] at h
      simp at h
      obtain ⟨hp, hn⟩ := h
      subst hp hn
      have : changed_indices pos pos = [] := by
        unfold changed_indices
        apply List.filter_eq_nil_iff.mpr
        intro a _
        simp
      simp [this]
    | cons tix rest =>
      rw [change_pos_aux_cons] at h
      by_cases hf : (move_tile (b.resulting_locs mv) (pos.getD tix [])).any
          (fun i => i.isNone) = true
      · rw [if_pos hf] at h; simp at h
      · rw [if_neg hf] at h
        have hrec := ih h
        set pos' := pos.set tix
          (move_tile (b.resulting_locs mv) (pos.getD tix [])).reduceOption with hpos'
        -- every changed index w.r.t. `pos` is `tix` or changed w.r.t. `pos'`
        have hlen : pos'.length = pos.length := by
          rw [hpos']; exact List.length_set pos _ _
        have hsub : ∀ i ∈ changed_indices pos p, i ∈ changed_indices pos' p ∨ i = tix := by
          intro i hi
          unfold changed_indices at hi ⊢
          rw [List.mem_filter] at hi
          obtain ⟨hir, hid⟩ := hi
          by_cases hit : i = tix
          · exact Or.inr hit
          · left
            rw [List.mem_filter]
            refine ⟨by rw [hlen]; exact hir, ?_⟩
            have : pos'.getD i [] = pos.getD i [] := getD_set_ne pos _ _ (fun hh => hit hh.symm)
            rw [this]
            exact hid
        -- cardinality argument
        have hnodup : (changed_indices pos p).Nodup :=
          (List.nodup_range _).filter _
        have hnodup' : (changed_indices pos' p).Nodup :=
          (List.nodup_range _).filter _
        have hcard : (changed_indices pos p).length ≤
            (changed_indices pos' p).length + 1 := by
          have hss : (changed_indices pos p).toFinset ⊆
              (changed_indices pos' p).toFinset ∪ {tix} := by
            intro a ha
            rw [List.mem_toFinset] at ha
            rcases hsub a ha with h1 | h1
            · exact Finset.mem_union_left _ (List.mem_toFinset.mpr h1)
            · exact Finset.mem_union_right _ (by simp [h1])
          calc (changed_indices pos p).length
              = (changed_indices pos p).toFinset.card :=
                (List.toFinset_card_of_nodup hnodup).symm
            _ ≤ ((changed_indices pos' p).toFinset ∪ {tix}).card :=
                Finset.card_le_card hss
            _ ≤ (changed_indices pos' p).toFinset.card + 1 := by
                have := Finset.card_union_le (changed_indices pos' p).toFinset
                  ({tix} : Finset Nat)
                simpa using this
            _ = (changed_indices pos' p).length + 1 := by
                rw [List.toFinset_card_of_nodup hnodup']
        omega

/-- C3 (amended): `block_size` counts the tile-move *steps* of the cascade; a
tile overlapped by several moved tiles can be re-enqueued and moved more than
once, so `block_size` is an upper bound on — and can strictly exceed — the
number of distinct tile indices whose cell-sets changed. -/
theorem c3_amended_changed_le_block_size (b : Board) (pos : GPos) (tix : Nat)
    (mv : Move) (p : GPos) (n : Nat)
    (h : change_pos b pos tix mv = (some p, n)) :
    (changed_indices pos p).length ≤ n := by
  unfold change_pos at h
  rcases hr : change_pos_aux b mv (change_pos_fuel pos) pos [tix] 0 with _ | r
  · rw [hr] at h
    exact absurd (congrArg Prod.fst h) (by simp)
  · rw [hr] at h
    simp only [Option.getD_some] at h
    rcases r with ⟨p?, m⟩
    cases h
    simpa using changed_indices_le_block hr

/-- Witness for C3 (amended) at the counterexample input: 3 changed tiles,
block size 4. -/
theorem c3_witness :
    change_pos (mkBoard []) [[1, 2], [5, 8], [6, 9]] 0 Move.se =
      (some [[5, 6], [9, 12], [14, 17]], 4) ∧
    (changed_indices [[1, 2], [5, 8], [6, 9]] [[5, 6], [9, 12], [14, 17]]).length ≤ 4 :=
  ⟨by decide,
    c3_amended_changed_le_block_size (mkBoard []) [[1, 2], [5, 8], [6, 9]] 0
      Move.se [[5, 6], [9, 12], [14, 17]] 4 (by decide)⟩

/-! ## Claim C2: the move engine preserves the Position invariant -/

/-- Cells of every tile are on-board non-holes. -/
def cells_ok (b : Board) (pos : GPos) : Prop :=
  ∀ t ∈ pos, ∀ c ∈ t, c < 26 ∧ c ∉ b.holes

/-- Every overlapping pair of tiles has a member in the pending queue. -/
def overlaps_covered (pos : GPos) (q : List Nat) : Prop :=
  ∀ i < pos.length, ∀ j < pos.length, i ≠ j →
    (∃ c ∈ pos.getD i [], c ∈ pos.getD j []) → i ∈ q ∨ j ∈ q

theorem overlap_tiles_iff (t u : Tile) :
    overlap_tiles t u = true ↔ ∃ c ∈ t, c ∈ u := by
  unfold overlap_tiles
  simp [List.any_eq_true]

theorem mem_check_overlaps {pos : GPos} {ref_tix i : Nat} :
    i ∈ check_overlaps pos ref_tix ↔
      i < pos.length ∧ i ≠ ref_tix ∧
        ∃ c ∈ pos.getD ref_tix [], c ∈ pos.getD i [] := by
  unfold check_overlaps
  rw [List.mem_filter, List.mem_range]
  simp [overlap_tiles_iff]

/-- Success cells of a moved tile: values of the board's `resulting_locs`. -/
theorem mem_reduceOption_move_tile {b : Board} {mv : Move} {t : Tile} {x : Nat}
    (hx : x ∈ (move_tile (b.resulting_locs mv) t).reduceOption) :
    ∃ c ∈ t, resulting_cell b mv c = some x := by
  unfold move_tile at hx
  rw [List.reduceOption_mem_iff] at hx
  rw [List.mem_map] at hx
  obtain ⟨c, hc, hcx⟩ := hx
  exact ⟨c, hc, hcx⟩

theorem change_pos_aux_invariant {hs : List Nat} {mv : Move} :
    ∀ {fuel : Nat} {pos : GPos} {q : List Nat} {bs : Nat} {p : GPos} {n : Nat},
      change_pos_aux (mkBoard hs) mv fuel pos q bs = some (some p, n) →
      cells_ok (mkBoard hs) pos → overlaps_covered pos q →
      pos_invariant (mkBoard hs) p := by
  intro fuel
  induction fuel with
  | zero => intro pos q bs p n h _ _; rw [change_pos_aux_zero] at h; cases h
  | succ fuel ih =>
    intro pos q bs p n h hcells hcov
    cases q with
    | nil =>
      rw [change_pos_aux_nil] at h
      simp at h
      obtain ⟨hp, _⟩ := h
      subst hp
      refine ⟨hcells, ?_⟩
      intro i hi j hj hij c hci hcj
      rcases hcov i hi j hj hij ⟨c, hci, hcj⟩ with h1 | h1 <;> simp at h1
    | cons tix rest =>
      rw [change_pos_aux_cons] at h
      by_cases hf : (move_tile ((mkBoard hs).resulting_locs mv) (pos.getD tix [])).any
          (fun i => i.isNone) = true
      · rw [if_pos hf] at h; simp at h
      · rw [if_neg hf] at h
        set newt := (move_tile ((mkBoard hs).resulting_locs mv) (pos.getD tix [])).reduceOption
          with hnewt
        set pos' := pos.set tix newt with hpos'
        have hlen : pos'.length = pos.length := List.length_set pos _ _
        -- cells of the new tile are valid
        have hnewt_ok : ∀ c ∈ newt, c < 26 ∧ c ∉ (mkBoard hs).holes := by
          intro x hx
          obtain ⟨c, _, hcx⟩ := mem_reduceOption_move_tile (hnewt ▸ hx)
          have hbase := resulting_cell_mkBoard_base hcx
          have hhole := resulting_cell_mkBoard_not_hole hcx
          refine ⟨resulting_cell_init_lt mv c x hbase, ?_⟩
          have : (mkBoard hs).holes = hs := rfl
          rw [this]
          exact hhole
        have hcells' : cells_ok (mkBoard hs) pos' := by
          intro t ht
          rcases List.mem_or_eq_of_mem_set (hpos' ▸ ht) with h1 | h1
          · exact hcells t h1
          · subst h1; exact hnewt_ok
        have hcov' : overlaps_covered pos' (rest ++ check_overlaps pos' tix) := by
          intro i hi j hj hij hoverlap
          by_cases hitix : i = tix
          · subst hitix
            right
            apply List.mem_append_right
            rw [mem_check_overlaps]
            exact ⟨hj, fun hh => hij hh.symm, hoverlap⟩
          · by_cases hjtix : j = tix
            · subst hjtix
              left
              apply List.mem_append_right
              rw [mem_check_overlaps]
              obtain ⟨c, hci, hcj⟩ := hoverlap
              exact ⟨hi, hitix, c, hcj, hci⟩
            · have hgi : pos'.getD i [] = pos.getD i [] :=
                getD_set_ne pos _ _ (fun hh => hitix hh.symm)
              have hgj : pos'.getD j [] = pos.getD j [] :=
                getD_set_ne pos _ _ (fun hh => hjtix hh.symm)
              rw [hgi, hgj] at hoverlap
              rcases hcov i (hlen ▸ hi) j (hlen ▸ hj) hij hoverlap with h1 | h1
              · rcases List.mem_cons.mp h1 with h2 | h2
                · exact absurd h2 hitix
                · exact Or.inl (List.mem_append_left _ h2)
              · rcases List.mem_cons.mp h1 with h2 | h2
                · exact absurd h2 hjtix
                · exact Or.inr (List.mem_append_left _ h2)
        exact ih h hcells' hcov'

/-- C2: for every board built by `set_holes`, every position satisfying the
Position invariant, every tile index and every direction, a successful
`change_pos` returns a position that again satisfies the Position invariant:
all cells on-board, none on a hole, and no two tiles overlapping. -/
theorem c2_move_engine_invariant (hs : List Nat) (pos : GPos) (tix : Nat)
    (mv : Move) (p : GPos) (n : Nat)
    (hinv : pos_invariant (mkBoard hs) pos) (htix : tix < pos.length)
    (h : change_pos (mkBoard hs) pos tix mv = (some p, n)) :
    pos_invariant (mkBoard hs) p := by
  unfold change_pos at h
  rcases hr : change_pos_aux (mkBoard hs) mv (change_pos_fuel pos) pos [tix] 0 with _ | r
  · rw [hr] at h
    exact absurd (congrArg Prod.fst h) (by simp)
  · rw [hr] at h
    simp only [Option.getD_some] at h
    rcases r with ⟨p?, m⟩
    cases h
    refine change_pos_aux_invariant hr hinv.1 ?_
    intro i hi j hj hij hoverlap
    obtain ⟨c, hci, hcj⟩ := hoverlap
    exact absurd hcj (hinv.2 i hi j hj hij c hci)

/-- Witness for C2: the red and orange tiles of the rule booklet, a north-west
block move of the red tile pushing the orange one. -/
theorem c2_witness :
    pos_invariant (mkBoard []) [[13, 17], [5, 9, 12]] ∧ 0 < 2 ∧
    change_pos (mkBoard []) [[13, 17], [5, 9, 12]] 0 Move.nw =
      (some [[9, 13], [1, 5, 8]], 2) ∧
    pos_invariant (mkBoard []) [[9, 13], [1, 5, 8]] :=
  ⟨by decide, by decide, by decide,
    c2_move_engine_invariant [] [[13, 17], [5, 9, 12]] 0 Move.nw
      [[9, 13], [1, 5, 8]] 2 (by decide) (by decide) (by decide)⟩

/-! ## Claim C8: `change_pos` never mutates the caller's position -/

/-- The heap loop writes only at its own reference index `r`. -/
theorem change_pos_heap_aux_frame {b : Board} {mv : Move} :
    ∀ {fuel : Nat} {heap : List GPos} {r : Nat} {q : List Nat} {bs : Nat}
      {heap' : List GPos} {res : Option GPos × Nat},
      change_pos_heap_aux b mv fuel heap r q bs = some (heap', res) →
      ∀ i, i ≠ r → heap'.getD i [] = heap.getD i [] := by
  intro fuel
  induction fuel with
  | zero => intro heap r q bs heap' res h; cases h
  | succ fuel ih =>
    intro heap r q bs heap' res h i hir
    cases q with
    | nil =>
      unfold change_pos_heap_aux at h
      simp at h
      rw [h.1]
    | cons tix rest =>
      unfold change_pos_heap_aux at h
      by_cases hf : (move_tile (b.resulting_locs mv)
          ((heap.getD r []).getD tix [])).any (fun i => i.isNone) = true
      · simp only [hf, if_true] at h
        simp at h
        rw [h.1]
      · simp only [hf, if_false] at h
        have := ih h i hir
        rw [this]
        exact getD_set_ne heap _ _ (fun hh => hir hh.symm)

/-- The heap model computes the same result as the functional `change_pos_aux`
(read off at the loop's own reference). -/
theorem change_pos_heap_aux_spec {b : Board} {mv : Move} :
    ∀ {fuel : Nat} {heap : List GPos} {r : Nat} {q : List Nat} {bs : Nat},
      r < heap.length →
      (change_pos_heap_aux b mv fuel heap r q bs).map Prod.snd =
        change_pos_aux b mv fuel (heap.getD r []) q bs := by
  intro fuel
  induction fuel with
  | zero => intro heap r q bs _; rfl
  | succ fuel ih =>
    intro heap r q bs hr
    cases q with
    | nil => rfl
    | cons tix rest =>
      rw [change_pos_aux_cons]
      unfold change_pos_heap_aux
      by_cases hf : (move_tile (b.resulting_locs mv)
          ((heap.getD r []).getD tix [])).any (fun i => i.isNone) = true
      · simp only [hf, if_true, if_pos hf, Option.map_some']
      · simp only [hf, Bool.false_eq_true, if_false, if_neg hf]
        have hset : (heap.set r ((heap.getD r []).set tix
            (move_tile (b.resulting_locs mv)
              ((heap.getD r []).getD tix [])).reduceOption)).getD r [] =
            (heap.getD r []).set tix
              (move_tile (b.resulting_locs mv)
                ((heap.getD r []).getD tix [])).reduceOption :=
          getD_set_self heap r _ [] hr
        rw [ih (by rw [List.length_set]; exact hr), hset]

/-- C8: `change_pos` operates on a private copy of the caller's position and
never mutates the list the caller passed in, whether the move succeeds or
fails — no partially applied block move is visible to the caller. -/
theorem c8_no_caller_mutation (b : Board) (heap : List GPos) (caller : Nat)
    (tix : Nat) (mv : Move) (heap' : List GPos) (res : Option GPos × Nat)
    (hc : caller < heap.length)
    (h : change_pos_heap b heap caller tix mv = some (heap', res)) :
    heap'.getD caller [] = heap.getD caller [] ∧
      ∀ i < heap.length, heap'.getD i [] = heap.getD i [] := by
  have hframe := change_pos_heap_aux_frame h
  have hleft : ∀ i < heap.length,
      (heap ++ [heap.getD caller []]).getD i [] = heap.getD i [] := by
    intro i hi
    rw [List.getD_eq_getElem?_getD, List.getElem?_append, if_pos hi,
      ← List.getD_eq_getElem?_getD]
  constructor
  · rw [hframe caller (by omega), hleft caller hc]
  · intro i hi
    rw [hframe i (by omega), hleft i hi]

/-- Witness for C8 on a concrete heap: after the call, the caller's list (heap
slot 0) still holds the original position. -/
theorem c8_witness :
    (change_pos_heap (mkBoard []) [[[13, 17], [5, 9, 12]]] 0 0 Move.nw).map
        (fun r => r.1.getD 0 []) = some [[13, 17], [5, 9, 12]] := by
  rcases hx : change_pos_heap (mkBoard []) [[[13, 17], [5, 9, 12]]] 0 0 Move.nw with _ | pr
  · exact absurd hx (by decide)
  · rw [Option.map_some']
    have hmut := (c8_no_caller_mutation (mkBoard []) [[[13, 17], [5, 9, 12]]] 0 0
      Move.nw pr.1 pr.2 (by decide) (by simpa using hx)).1
    rw [hmut]
    rfl

/-! ## Sufficiency of the `change_pos` fuel bound

Every direction moves a cell strictly towards one edge of the board, so each
tile-move step strictly decreases the total cell rank; the queue grows by at
most the number of tiles per step.  This bounds the number of loop iterations
of `change_pos` and shows the fuel `change_pos_fuel pos` is never exhausted on
boards built by `set_holes` from the initial topology. -/

theorem rank_aux_succ (fuel : Nat) (mv : Move) (c : Nat) :
    rank_aux (fuel + 1) mv c =
      match resulting_cell antivirus_init mv c with
      | none => 0
      | some c' => rank_aux fuel mv c' + 1 := rfl

theorem rank_aux_le (fuel : Nat) (mv : Move) (c : Nat) :
    rank_aux fuel mv c ≤ fuel := by
  induction fuel generalizing c with
  | zero => exact Nat.le_refl 0
  | succ fuel ih =>
    rw [rank_aux_succ]
    rcases h : resulting_cell antivirus_init mv c with _ | c'
    · exact Nat.zero_le _
    · show rank_aux fuel mv c' + 1 ≤ fuel + 1
      have := ih c'; omega

theorem rank_aux_stable :
    ∀ mv : Move, ∀ c < 26, rank_aux 26 mv c = rank_aux 27 mv c := by decide

/-- The rank strictly decreases along every transition of the initial
topology. -/
theorem brank_step {mv : Move} {c c' : Nat}
    (h : resulting_cell antivirus_init mv c = some c') :
    brank mv c = brank mv c' + 1 := by
  have hc' : c' < 26 := resulting_cell_init_lt mv c c' h
  show rank_aux 27 mv c = rank_aux 27 mv c' + 1
  rw [show (27 : Nat) = 26 + 1 from rfl, rank_aux_succ, h]
  show rank_aux 26 mv c' + 1 = rank_aux (26 + 1) mv c' + 1
  rw [rank_aux_stable mv c' hc']

theorem tile_rank_nil (mv : Move) : tile_rank mv [] = 0 := rfl

theorem tile_rank_cons (mv : Move) (c : Nat) (t : Tile) :
    tile_rank mv (c :: t) = brank mv c + tile_rank mv t := by
  simp [tile_rank]

/-- A successfully moved tile loses exactly its length in total rank. -/
theorem tile_rank_moved {b : Board} (hb : base_compatible b) (mv : Move) :
    ∀ t : Tile,
      ((move_tile (b.resulting_locs mv) t).any (fun i => i.isNone)) = false →
      tile_rank mv (move_tile (b.resulting_locs mv) t).reduceOption + t.length =
        tile_rank mv t := by
  intro t
  induction t with
  | nil => intro _; rfl
  | cons c t ih =>
    intro hok
    have hcons : move_tile (b.resulting_locs mv) (c :: t) =
        (b.resulting_locs mv).getD c none :: move_tile (b.resulting_locs mv) t := rfl
    have hok2 : ((b.resulting_locs mv).getD c none).isNone = false ∧
        ((move_tile (b.resulting_locs mv) t).any (fun i => i.isNone)) = false := by
      rw [hcons, List.any_cons] at hok
      exact Bool.or_eq_false_iff.mp hok
    rcases hval : (b.resulting_locs mv).getD c none with _ | c'
    · rw [hval] at hok2; simp at hok2
    · have hbase : resulting_cell antivirus_init mv c = some c' := hb mv c c' hval
      have hbr := brank_step hbase
      have hih := ih hok2.2
      have hmt : move_tile (b.resulting_locs mv) (c :: t) =
          some c' :: move_tile (b.resulting_locs mv) t := by rw [hcons, hval]
      rw [hmt, List.reduceOption_cons_of_some, tile_rank_cons, tile_rank_cons,
        List.length_cons]
      omega

theorem pos_rank_nil (mv : Move) : pos_rank mv [] = 0 := rfl

theorem pos_rank_cons (mv : Move) (t : Tile) (p : GPos) :
    pos_rank mv (t :: p) = tile_rank mv t + pos_rank mv p := by
  simp [pos_rank]

theorem pos_rank_set (mv : Move) :
    ∀ (pos : GPos) (tix : Nat) (u : Tile), tix < pos.length →
      pos_rank mv (pos.set tix u) + tile_rank mv (pos.getD tix []) =
        pos_rank mv pos + tile_rank mv u := by
  intro pos
  induction pos with
  | nil => intro tix u h; simp at h
  | cons a p ih =>
    intro tix u h
    cases tix with
    | zero =>
      show pos_rank mv (u :: p) + tile_rank mv a = pos_rank mv (a :: p) + tile_rank mv u
      rw [pos_rank_cons, pos_rank_cons]; omega
    | succ n =>
      show pos_rank mv (a :: p.set n u) + tile_rank mv (p.getD n []) =
        pos_rank mv (a :: p) + tile_rank mv u
      rw [pos_rank_cons, pos_rank_cons]
      have := ih n u (by simpa using h)
      omega

theorem length_check_overlaps_le (pos : GPos) (r : Nat) :
    (check_overlaps pos r).length ≤ pos.length := by
  unfold check_overlaps
  calc ((List.range pos.length).filter _).length
      ≤ (List.range pos.length).length := List.length_filter_le _ _
    _ = pos.length := List.length_range _

theorem check_overlaps_empty_ref {pos : GPos} {r : Nat}
    (h : pos.getD r [] = []) : check_overlaps pos r = [] := by
  unfold check_overlaps
  apply List.filter_eq_nil_iff.mpr
  intro a _
  rw [h]
  simp [overlap_tiles]

theorem move_tile_nil (row : List (Option Nat)) : move_tile row [] = [] := rfl

/-- Fuel sufficiency for the `change_pos` loop: the loop terminates within
`pos_rank·(length+1) + |queue|` iterations. -/
theorem step_measure {b : Board} (hb : base_compatible b) (mv : Move)
    (pos : GPos) (tix : Nat)
    (hf0 : ((move_tile (b.resulting_locs mv) (pos.getD tix [])).any
      (fun i => i.isNone)) = false) :
    pos_rank mv (pos.set tix
        ((move_tile (b.resulting_locs mv) (pos.getD tix [])).reduceOption)) *
      (pos.length + 1) +
    (check_overlaps (pos.set tix
        ((move_tile (b.resulting_locs mv) (pos.getD tix [])).reduceOption)) tix).length
    ≤ pos_rank mv pos * (pos.length + 1) := by
  rcases Nat.lt_or_ge tix pos.length with htix | htix
  · have h1 := pos_rank_set mv pos tix
      ((move_tile (b.resulting_locs mv) (pos.getD tix [])).reduceOption) htix
    have h2 := tile_rank_moved hb mv (pos.getD tix []) hf0
    rcases hT : (pos.getD tix []).length with _ | k
    · -- empty tile: rank unchanged, no new overlaps
      have hnil : pos.getD tix [] = [] := List.length_eq_zero.mp hT
      have hmt : (move_tile (b.resulting_locs mv) (pos.getD tix [])).reduceOption
          = [] := by rw [hnil]; rfl
      have hco : check_overlaps (pos.set tix
          ((move_tile (b.resulting_locs mv) (pos.getD tix [])).reduceOption)) tix
          = [] := by
        apply check_overlaps_empty_ref
        rw [getD_set_self pos tix _ [] htix, hmt]
      have hpr : pos_rank mv (pos.set tix
          ((move_tile (b.resulting_locs mv) (pos.getD tix [])).reduceOption))
          = pos_rank mv pos := by
        rw [hmt] at h1
        rw [hnil] at h1
        rw [hmt]
        simpa using h1
      rw [hco, hpr]
      simp
    · -- nonempty tile: total rank strictly decreases by its length
      have hk : 1 ≤ (pos.getD tix []).length := by omega
      have hco := length_check_overlaps_le (pos.set tix
        ((move_tile (b.resulting_locs mv) (pos.getD tix [])).reduceOption)) tix
      rw [List.length_set] at hco
      have hpr : pos_rank mv (pos.set tix
          ((move_tile (b.resulting_locs mv) (pos.getD tix [])).reduceOption)) +
          (pos.getD tix []).length = pos_rank mv pos := by omega
      have hexp : (pos_rank mv (pos.set tix
          ((move_tile (b.resulting_locs mv) (pos.getD tix [])).reduceOption)) +
          (pos.getD tix []).length) * (pos.length + 1) =
          pos_rank mv (pos.set tix
            ((move_tile (b.resulting_locs mv) (pos.getD tix [])).reduceOption)) *
            (pos.length + 1) +
          (pos.getD tix []).length * (pos.length + 1) := by ring
      have hge : pos.length + 1 ≤ (pos.getD tix []).length * (pos.length + 1) :=
        Nat.le_mul_of_pos_left _ (by omega)
      have hmm : pos_rank mv pos * (pos.length + 1) =
          pos_rank mv (pos.set tix
            ((move_tile (b.resulting_locs mv) (pos.getD tix [])).reduceOption)) *
            (pos.length + 1) +
          (pos.getD tix []).length * (pos.length + 1) := by
        rw [← hexp, hpr]
      omega
  · -- out-of-range tile index: the empty default tile moves to itself
    have hnil : pos.getD tix [] = [] := getD_of_length_le [] htix
    have hmt : (move_tile (b.resulting_locs mv) (pos.getD tix [])).reduceOption
        = [] := by rw [hnil]; rfl
    have hset : pos.set tix
        ((move_tile (b.resulting_locs mv) (pos.getD tix [])).reduceOption) = pos :=
      List.set_eq_of_length_le htix
    have hco : check_overlaps (pos.set tix
        ((move_tile (b.resulting_locs mv) (pos.getD tix [])).reduceOption)) tix
        = [] := by
      apply check_overlaps_empty_ref
      rw [hset, hnil]
    rw [hco, hset]
    simp

/-- Fuel sufficiency for the `change_pos` loop: the loop terminates within
`pos_rank·(length+1) + |queue|` iterations. -/
theorem change_pos_aux_isSome {b : Board} (hb : base_compatible b) (mv : Move) :
    ∀ (fuel : Nat) (pos : GPos) (q : List Nat) (bs : Nat),
      pos_rank mv pos * (pos.length + 1) + q.length < fuel →
      (change_pos_aux b mv fuel pos q bs).isSome = true := by
  intro fuel
  induction fuel with
  | zero => intro pos q bs hm; omega
  | succ fuel ih =>
    intro pos q bs hm
    cases q with
    | nil => rw [change_pos_aux_nil]; rfl
    | cons tix rest =>
      rw [change_pos_aux_cons]
      by_cases hf : (move_tile (b.resulting_locs mv) (pos.getD tix [])).any
          (fun i => i.isNone) = true
      · rw [if_pos hf]; rfl
      · rw [if_neg hf]
        apply ih
        have hstep := step_measure hb mv pos tix (Bool.eq_false_iff.mpr hf)
        rw [List.length_cons] at hm
        rw [List.length_append, List.length_set]
        omega

theorem mkBoard_base_compatible (hs : List Nat) : base_compatible (mkBoard hs) :=
  fun _ _ _ h => resulting_cell_mkBoard_base h

theorem tile_rank_le (mv : Move) (t : Tile) : tile_rank mv t ≤ 27 * t.length := by
  induction t with
  | nil => simp [tile_rank_nil]
  | cons c t ih =>
    rw [tile_rank_cons]
    have := rank_aux_le 27 mv c
    have : brank mv c ≤ 27 := this
    simp only [List.length_cons]
    omega

theorem pos_rank_le (mv : Move) (pos : GPos) :
    pos_rank mv pos ≤ 27 * cell_count pos := by
  induction pos with
  | nil => simp [pos_rank_nil, cell_count]
  | cons t p ih =>
    rw [pos_rank_cons]
    have h1 := tile_rank_le mv t
    have h2 : cell_count (t :: p) = t.length + cell_count p := by
      simp [cell_count]
    rw [h2]
    omega

/-- The wrapper fuel of `change_pos` is always sufficient on boards built by
`set_holes`: the embedded `change_pos` never reports an artificial
out-of-fuel result, so it agrees with the Python loop on every input. -/
theorem change_pos_defined (hs : List Nat) (pos : GPos) (tix : Nat) (mv : Move) :
    (change_pos_aux (mkBoard hs) mv (change_pos_fuel pos) pos [tix] 0).isSome = true := by
  apply change_pos_aux_isSome (mkBoard_base_compatible hs)
  unfold change_pos_fuel
  have h1 := pos_rank_le mv pos
  have h2 : pos_rank mv pos * (pos.length + 1) ≤
      27 * cell_count pos * (pos.length + 1) :=
    Nat.mul_le_mul_right _ h1
  simp only [List.length_cons, List.length_nil]
  omega

/-! ## Unfolding lemmas for `solve_aux` -/

theorem solve_aux_zero (b : Board) (sc : Option (GPos → Bool)) (dmax : Option Nat)
    (pb : Bool) (Q : List QEntry) (vt : VisitedTree) (lp : Option GPos) :
    solve_aux b sc dmax pb 0 Q vt lp = none := rfl

theorem solve_aux_nil (b : Board) (sc : Option (GPos → Bool)) (dmax : Option Nat)
    (pb : Bool) (fuel : Nat) (vt : VisitedTree) (lp : Option GPos) :
    solve_aux b sc dmax pb (fuel + 1) [] vt lp = some (false, vt, lp) := rfl

theorem solve_aux_cons (b : Board) (sc : Option (GPos → Bool)) (dmax : Option Nat)
    (pb : Bool) (fuel : Nat) (pos : GPos) (w : Nat) (f : Father) (dist : Nat)
    (rest : List QEntry) (vt : VisitedTree) (lp : Option GPos) :
    solve_aux b sc dmax pb (fuel + 1) ((pos, w, f, dist) :: rest) vt lp =
      (if dmax_truthy dmax dist then some (false, vt, lp)
       else if pb && decide (w > 1) then
         solve_aux b sc dmax pb fuel (rest ++ [(pos, w - 1, f, dist + 1)]) vt lp
       else if (vtGet vt pos).isSome then
         solve_aux b sc dmax pb fuel rest vt lp
       else if sc_check sc pos then some (true, (pos, f) :: vt, some pos)
       else
         solve_aux b sc dmax pb fuel
           (rest ++ succ_entries b ((pos, f) :: vt) pos (father_tix f) dist)
           ((pos, f) :: vt) (some pos)) := rfl

/-! ## Claim C10: semantics of `distance_max` -/

/-- C10: `distance_max = 0` is falsy in `if distance_max and ...`, so the
bound is ignored and `solve` behaves exactly as with `distance_max = None`;
for a strictly positive bound, `solve` returns `False` the moment the
dequeued node's distance strictly exceeds the bound. -/
theorem c10_distance_bound (b : Board) (sc : Option (GPos → Bool)) (pb : Bool) :
    (∀ (fuel : Nat) (Q : List QEntry) (vt : VisitedTree) (lp : Option GPos),
      solve_aux b sc (some 0) pb fuel Q vt lp =
        solve_aux b sc none pb fuel Q vt lp) ∧
    (∀ dm, 1 ≤ dm → ∀ (fuel : Nat) (pos : GPos) (w : Nat) (f : Father)
      (dist : Nat) (rest : List QEntry) (vt : VisitedTree) (lp : Option GPos),
      dm < dist →
      solve_aux b sc (some dm) pb (fuel + 1) ((pos, w, f, dist) :: rest) vt lp =
        some (false, vt, lp)) := by
  constructor
  · intro fuel
    induction fuel with
    | zero => intro Q vt lp; rfl
    | succ fuel ih =>
      intro Q vt lp
      cases Q with
      | nil => rfl
      | cons e rest =>
        obtain ⟨pos, w, f, dist⟩ := e
        rw [solve_aux_cons, solve_aux_cons]
        rw [show dmax_truthy (some 0) dist = dmax_truthy none dist from rfl]
        split_ifs <;> first | rfl | apply ih
  · intro dm hdm fuel pos w f dist rest vt lp hlt
    rw [solve_aux_cons]
    have htr : dmax_truthy (some dm) dist = true := by
      show (if dm = 0 then false else decide (dist > dm)) = true
      rw [if_neg (by omega)]
      exact decide_eq_true hlt
    rw [if_pos htr]

/-- Witness for C10: both parts instantiated at concrete solver states. -/
theorem c10_witness :
    (solve_aux (mkBoard []) none (some 0) false 3
        [([[13]], 1, Father.start, 0)] [] none =
      solve_aux (mkBoard []) none none false 3
        [([[13]], 1, Father.start, 0)] [] none) ∧
    solve_aux (mkBoard []) none (some 1) false 1
        [([[0]], 1, Father.start, 2)] [] none = some (false, [], none) :=
  ⟨(c10_distance_bound (mkBoard []) none false).1 3 _ _ _,
   (c10_distance_bound (mkBoard []) none false).2 1 (by decide) 0 [[0]] 1
     Father.start 2 [] [] none (by decide)⟩

/-! ## Lemmas on `vtGet`, `change_pos` results, and successor generation -/

theorem vtGet_cons_self (vt : VisitedTree) (p : GPos) (f : Father) :
    vtGet ((p, f) :: vt) p = some f := by simp [vtGet]

theorem vtGet_cons_ne (vt : VisitedTree) {p q : GPos} (f : Father) (h : p ≠ q) :
    vtGet ((p, f) :: vt) q = vtGet vt q := by simp [vtGet, h]

theorem vtGet_cons_ne_none {vt : VisitedTree} {q : GPos} (p : GPos) (f : Father)
    (h : vtGet vt q ≠ none) : vtGet ((p, f) :: vt) q ≠ none := by
  by_cases hpq : p = q
  · subst hpq; rw [vtGet_cons_self]; simp
  · rw [vtGet_cons_ne vt f hpq]; exact h

theorem vtGet_cons_of_fresh {vt : VisitedTree} {p q : GPos} {f g : Father}
    (hfresh : vtGet vt p = none) (h : vtGet vt q = some g) :
    vtGet ((p, f) :: vt) q = some g := by
  have hpq : p ≠ q := by rintro rfl; rw [hfresh] at h; cases h
  rw [vtGet_cons_ne vt f hpq]; exact h

theorem change_pos_aux_length {b : Board} {mv : Move} :
    ∀ {fuel : Nat} {pos : GPos} {q : List Nat} {bs : Nat} {p : GPos} {n : Nat},
      change_pos_aux b mv fuel pos q bs = some (some p, n) → p.length = pos.length := by
  intro fuel
  induction fuel with
  | zero => intro pos q bs p n h; cases h
  | succ fuel ih =>
    intro pos q bs p n h
    cases q with
    | nil =>
      rw [change_pos_aux_nil] at h
      simp at h
      rw [h.1]
    | cons tix rest =>
      rw [change_pos_aux_cons] at h
      by_cases hf : (move_tile (b.resulting_locs mv) (pos.getD tix [])).any
          (fun i => i.isNone) = true
      · rw [if_pos hf] at h; simp at h
      · rw [if_neg hf] at h
        have := ih h
        rw [this, List.length_set]

/-- A successful `change_pos` preserves the number of tiles. -/
theorem change_pos_length {b : Board} {pos : GPos} {tix : Nat} {mv : Move}
    {p : GPos} {n : Nat} (h : change_pos b pos tix mv = (some p, n)) :
    p.length = pos.length := by
  unfold change_pos at h
  rcases hr : change_pos_aux b mv (change_pos_fuel pos) pos [tix] 0 with _ | r
  · rw [hr] at h; exact absurd (congrArg Prod.fst h) (by simp)
  · rw [hr] at h
    simp only [Option.getD_some] at h
    rcases r with ⟨p?, m⟩
    cases h
    exact change_pos_aux_length hr

theorem change_pos_aux_bs_lt {b : Board} {mv : Move} :
    ∀ {fuel : Nat} {pos : GPos} {tix0 : Nat} {rest0 : List Nat} {bs : Nat}
      {p : GPos} {n : Nat},
      change_pos_aux b mv fuel pos (tix0 :: rest0) bs = some (some p, n) → bs < n := by
  have haux : ∀ (fuel : Nat) {pos : GPos} {q : List Nat} {bs : Nat} {p : GPos} {n : Nat},
      change_pos_aux b mv fuel pos q bs = some (some p, n) → bs ≤ n := by
    intro fuel
    induction fuel with
    | zero => intro pos q bs p n h; cases h
    | succ fuel ih =>
      intro pos q bs p n h
      cases q with
      | nil => rw [change_pos_aux_nil] at h; simp at h; omega
      | cons tix rest =>
        rw [change_pos_aux_cons] at h
        by_cases hf : (move_tile (b.resulting_locs mv) (pos.getD tix [])).any
            (fun i => i.isNone) = true
        · rw [if_pos hf] at h; simp at h
        · rw [if_neg hf] at h
          have := ih h
          omega
  intro fuel pos tix0 rest0 bs p n h
  cases fuel with
  | zero => cases h
  | succ fuel =>
    rw [change_pos_aux_cons] at h
    by_cases hf : (move_tile (b.resulting_locs mv) (pos.getD tix0 [])).any
        (fun i => i.isNone) = true
    · rw [if_pos hf] at h; simp at h
    · rw [if_neg hf] at h
      have := haux fuel h
      omega

/-- A successful `change_pos` reports a positive block size. -/
theorem change_pos_bs_pos {b : Board} {pos : GPos} {tix : Nat} {mv : Move}
    {p : GPos} {n : Nat} (h : change_pos b pos tix mv = (some p, n)) : 1 ≤ n := by
  unfold change_pos at h
  rcases hr : change_pos_aux b mv (change_pos_fuel pos) pos [tix] 0 with _ | r
  · rw [hr] at h; exact absurd (congrArg Prod.fst h) (by simp)
  · rw [hr] at h
    simp only [Option.getD_some] at h
    rcases r with ⟨p?, m⟩
    cases h
    exact change_pos_aux_bs_lt hr

/-- Moving an out-of-range tile index is a successful no-op of block size 1
(the default empty tile translates to itself). -/
theorem change_pos_oob {b : Board} {pos : GPos} {tix : Nat} (mv : Move)
    (h : pos.length ≤ tix) : change_pos b pos tix mv = (some pos, 1) := by
  have hnil : pos.getD tix [] = [] := getD_of_length_le [] h
  have hset : pos.set tix ([] : Tile) = pos := List.set_eq_of_length_le h
  unfold change_pos
  have h2 : change_pos_fuel pos = (27 * cell_count pos * (pos.length + 1) + 1) + 1 := by
    unfold change_pos_fuel; omega
  rw [h2, change_pos_aux_cons, hnil]
  rw [show move_tile (b.resulting_locs mv) [] = [] from rfl]
  rw [if_neg (by simp)]
  rw [show (([] : List (Option Nat))).reduceOption = [] from rfl]
  rw [hset]
  have hco : check_overlaps pos tix = [] := check_overlaps_empty_ref hnil
  rw [hco]
  rcases hfuel : 27 * cell_count pos * (pos.length + 1) + 1 with _ | ff
  · omega
  · rw [List.append_nil, change_pos_aux_nil]
    rfl

theorem mem_tix_order {tix prev L : Nat} (h : tix ∈ tix_order prev L) :
    tix = prev ∨ tix < prev ∨ tix < L := by
  unfold tix_order at h
  rcases List.mem_cons.mp h with h1 | h1
  · exact Or.inl h1
  · rcases List.mem_append.mp h1 with h2 | h2
    · exact Or.inr (Or.inl (List.mem_range.mp h2))
    · have := List.mem_of_mem_drop h2
      exact Or.inr (Or.inr (List.mem_range.mp this))

theorem mem_succ_entries {b : Board} {vt : VisitedTree} {pos : GPos}
    {prev dist : Nat} {e : QEntry} (h : e ∈ succ_entries b vt pos prev dist) :
    ∃ tix mv np bs, tix ∈ tix_order prev pos.length ∧
      change_pos b pos tix mv = (some np, bs) ∧ vtGet vt np = none ∧
      e = (np, bs, Father.node pos tix mv, dist + 1) := by
  unfold succ_entries at h
  rw [List.mem_flatMap] at h
  obtain ⟨tix, htix, hmem⟩ := h
  rw [List.mem_filterMap] at hmem
  obtain ⟨mv, _, hmv⟩ := hmem
  rcases hcp : change_pos b pos tix mv with ⟨np?, bs⟩
  rw [hcp] at hmv
  rcases np? with _ | np
  · cases hmv
  · dsimp only at hmv
    by_cases hvis : (vtGet vt np).isNone = true
    · rw [if_pos hvis] at hmv
      cases hmv
      exact ⟨tix, mv, np, bs, htix, hcp, Option.isNone_iff_eq_none.mp hvis, rfl⟩
    · rw [if_neg hvis] at hmv
      cases hmv

/-! ## Preservation of the structural solver invariant -/

/-- Successor entries generated from a freshly settled position are
node-entries recording genuine edges from that position. -/
theorem succ_entries_node_ok {b : Board} {vt : VisitedTree} {pos : GPos}
    {f : Father} {prev dist : Nat} :
    ∀ e ∈ succ_entries b ((pos, f) :: vt) pos prev dist,
      q_entry_node_ok b ((pos, f) :: vt) e := by
  intro e he
  obtain ⟨tix, mv, np, bs, htix, hcp, hfresh, rfl⟩ := mem_succ_entries he
  by_cases hL : tix < pos.length
  · refine ⟨change_pos_bs_pos hcp, pos, tix, mv, rfl, hL, ?_, ?_⟩
    · rw [hcp]
    · rw [vtGet_cons_self]; simp
  · exfalso
    have := @change_pos_oob b pos tix mv (show pos.length ≤ tix by omega)
    rw [this] at hcp
    have hnp : np = pos := by
      have := congrArg Prod.fst hcp
      simpa using this.symm
    subst hnp
    rw [vtGet_cons_self] at hfresh
    cases hfresh

/-- Settling an unvisited queue head preserves the structural invariant. -/
theorem settle_preserves {b : Board} {p0 : GPos} {Q : List QEntry}
    {vt : VisitedTree} {pos : GPos} {w : Nat} {f : Father} {dist : Nat}
    {rest : List QEntry}
    (hQ : Q = (pos, w, f, dist) :: rest)
    (hinv : solver_inv0 b p0 Q vt)
    (hnotvis : vtGet vt pos = none) :
    vt_wf b p0 ((pos, f) :: vt) ∧
      solver_inv0 b p0
        (rest ++ succ_entries b ((pos, f) :: vt) pos (father_tix f) dist)
        ((pos, f) :: vt) := by
  rcases hinv with ⟨hvt, w', d', hw', hsingle⟩ | ⟨hne, hwf, hq⟩
  · subst hvt
    rw [hQ] at hsingle
    simp only [List.cons.injEq, Prod.mk.injEq] at hsingle
    obtain ⟨⟨hp, hw2, hf2, hd⟩, hrest⟩ := hsingle
    subst hf2 hrest
    have hwf' : vt_wf b p0 ((pos, Father.start) :: []) :=
      ⟨trivial, rfl, hp, rfl⟩
    refine ⟨hwf', Or.inr ⟨by simp, hwf', ?_⟩⟩
    intro e he
    rw [List.nil_append] at he
    exact succ_entries_node_ok e he
  · have hentry : q_entry_node_ok b vt (pos, w, f, dist) := hq _ (hQ ▸ List.mem_cons_self _ _)
    obtain ⟨hw, p', t, m, hf, ht, hedge, hp'⟩ := hentry
    have hf2 : f = Father.node p' t m := hf
    have hedge2 : (change_pos b p' t m).1 = some pos := hedge
    have hwf' : vt_wf b p0 ((pos, f) :: vt) := by
      refine ⟨hwf, hnotvis, ?_⟩
      rw [hf2]
      exact ⟨hp', ht, hedge2⟩
    refine ⟨hwf', Or.inr ⟨by simp, hwf', ?_⟩⟩
    intro e he
    rcases List.mem_append.mp he with h1 | h1
    · obtain ⟨hw1, p1, t1, m1, hf1, ht1, he1, hp1⟩ :=
        hq e (hQ ▸ List.mem_cons_of_mem _ h1)
      exact ⟨hw1, p1, t1, m1, hf1, ht1, he1, vtGet_cons_ne_none pos f hp1⟩
    · exact succ_entries_node_ok e h1

/-- Re-enqueueing with decremented waiting time preserves the invariant. -/
theorem requeue_preserves {b : Board} {p0 : GPos} {vt : VisitedTree}
    {pos : GPos} {w : Nat} {f : Father} {dist : Nat} {rest : List QEntry}
    (hinv : solver_inv0 b p0 ((pos, w, f, dist) :: rest) vt) (hw : 1 < w) :
    solver_inv0 b p0 (rest ++ [(pos, w - 1, f, dist + 1)]) vt := by
  rcases hinv with ⟨hvt, w', d', hw', hsingle⟩ | ⟨hne, hwf, hq⟩
  · simp only [List.cons.injEq, Prod.mk.injEq] at hsingle
    obtain ⟨⟨hp, hw2, hf2, hd⟩, hrest⟩ := hsingle
    subst hf2 hrest hvt
    exact Or.inl ⟨rfl, w - 1, dist + 1, by omega, by rw [hp]; rfl⟩
  · refine Or.inr ⟨hne, hwf, ?_⟩
    intro e he
    rcases List.mem_append.mp he with h1 | h1
    · exact hq e (List.mem_cons_of_mem _ h1)
    · rcases List.mem_singleton.mp h1 with rfl
      obtain ⟨hw1, p1, t1, m1, hf1, ht1, he1, hp1⟩ := hq _ (List.mem_cons_self _ _)
      exact ⟨show 1 ≤ w - 1 by omega, p1, t1, m1, hf1, ht1, he1, hp1⟩

/-- Dropping an already-visited queue head preserves the invariant. -/
theorem drop_preserves {b : Board} {p0 : GPos} {vt : VisitedTree}
    {pos : GPos} {w : Nat} {f : Father} {dist : Nat} {rest : List QEntry}
    (hinv : solver_inv0 b p0 ((pos, w, f, dist) :: rest) vt)
    (hvis : (vtGet vt pos).isSome = true) :
    solver_inv0 b p0 rest vt := by
  rcases hinv with ⟨hvt, _, _, _, _⟩ | ⟨hne, hwf, hq⟩
  · subst hvt; simp [vtGet] at hvis
  · exact Or.inr ⟨hne, hwf, fun e he => hq e (List.mem_cons_of_mem _ he)⟩

/-- Any `solve_aux` run that returns `True` ends at a well-formed visited
tree whose `last_pos` is a settled key. -/
theorem solve_aux_true_shape {b : Board} {sc : Option (GPos → Bool)}
    {dmax : Option Nat} {pb : Bool} {p0 : GPos} :
    ∀ {fuel : Nat} {Q : List QEntry} {vt : VisitedTree} {lp : Option GPos}
      {vt2 : VisitedTree} {lpo : Option GPos},
      solve_aux b sc dmax pb fuel Q vt lp = some (true, vt2, lpo) →
      solver_inv0 b p0 Q vt →
      ∃ lp2 f2, lpo = some lp2 ∧ vt_wf b p0 vt2 ∧ vtGet vt2 lp2 = some f2 := by
  intro fuel
  induction fuel with
  | zero => intro Q vt lp vt2 lpo h _; cases h
  | succ fuel ih =>
    intro Q vt lp vt2 lpo h hinv
    cases Q with
    | nil => rw [solve_aux_nil] at h; simp at h
    | cons e rest =>
      obtain ⟨pos, w, f, dist⟩ := e
      rw [solve_aux_cons] at h
      by_cases h1 : dmax_truthy dmax dist = true
      · rw [if_pos h1] at h; simp at h
      · rw [if_neg h1] at h
        by_cases h2 : (pb && decide (w > 1)) = true
        · rw [if_pos h2] at h
          have hw2 : 1 < w := by
            rcases Bool.and_eq_true_iff.mp h2 with ⟨_, hb⟩
            exact of_decide_eq_true hb
          exact ih h (requeue_preserves hinv hw2)
        · rw [if_neg h2] at h
          by_cases h3 : (vtGet vt pos).isSome = true
          · rw [if_pos h3] at h
            exact ih h (drop_preserves hinv h3)
          · rw [if_neg h3] at h
            have hset := settle_preserves rfl hinv (by
              rcases hval : vtGet vt pos with _ | g
              · rfl
              · rw [hval] at h3; simp at h3)
            by_cases h4 : sc_check sc pos = true
            · rw [if_pos h4] at h
              simp only [Option.some.injEq, Prod.mk.injEq] at h
              obtain ⟨_, hvt2, hlpo⟩ := h
              refine ⟨pos, f, hlpo.symm, ?_, ?_⟩
              · rw [← hvt2]; exact hset.1
              · rw [← hvt2]; exact vtGet_cons_self vt pos f
            · rw [if_neg h4] at h
              exact ih h hset.2

/-! ## Parent chains and path reconstruction -/

theorem spa_succ (vt : VisitedTree) (fuel : Nat) (pos : GPos) (tixo : Option Nat)
    (mvo : Option Move) (acc : List PathEntry) :
    shortest_path_aux vt (fuel + 1) pos tixo mvo acc =
      (match vtGet vt pos with
       | none => none
       | some Father.start => some ((pos, tixo, mvo) :: acc)
       | some (Father.node p t m) =>
         shortest_path_aux vt fuel p (some t) (some m) ((pos, tixo, mvo) :: acc)) := rfl

/-- Inserting a fresh key preserves parent chains. -/
theorem VChain_mono {b : Board} {p0 : GPos} {vt : VisitedTree} {q : GPos} {d : Nat}
    (h : VChain b p0 vt q d) (p : GPos) (f : Father) (hfresh : vtGet vt p = none) :
    VChain b p0 ((p, f) :: vt) q d := by
  induction h with
  | root hroot => exact VChain.root (vtGet_cons_of_fresh hfresh hroot)
  | step hch hlook ht hedge ih =>
    exact VChain.step ih (vtGet_cons_of_fresh hfresh hlook) ht hedge

/-- Every settled position of a well-formed visited tree has a parent chain
to the root, shorter than the tree. -/
theorem VChain_exists_lt {b : Board} {p0 : GPos} :
    ∀ {vt : VisitedTree}, vt_wf b p0 vt → ∀ {q : GPos} {f : Father},
      vtGet vt q = some f → ∃ d, VChain b p0 vt q d ∧ d < vt.length := by
  intro vt
  induction vt with
  | nil => intro _ q f h; cases h
  | cons e rest ih =>
    obtain ⟨p, f0⟩ := e
    intro hwf q f hget
    obtain ⟨hwfr, hfresh, hmatch⟩ := hwf
    by_cases hpq : p = q
    · subst hpq
      cases f0 with
      | start =>
        obtain ⟨hp0, hrest⟩ := hmatch
        subst hp0 hrest
        exact ⟨0, VChain.root (vtGet_cons_self _ _ _), by simp⟩
      | node p' t m =>
        obtain ⟨hp', ht, hedge⟩ := hmatch
        rcases hg : vtGet rest p' with _ | g
        · exact absurd hg hp'
        · obtain ⟨d', hch, hlt⟩ := ih hwfr hg
          refine ⟨d' + 1, ?_, by simpa using hlt⟩
          exact VChain.step (VChain_mono hch p (Father.node p' t m) hfresh)
            (vtGet_cons_self _ _ _) ht hedge
    · rw [vtGet_cons_ne rest f0 hpq] at hget
      obtain ⟨d, hch, hlt⟩ := ih hwfr hget
      refine ⟨d, VChain_mono hch p f0 hfresh, ?_⟩
      simp only [List.length_cons]
      omega

/-- Parent chains have a unique length (father references are functional). -/
theorem VChain_functional {b : Board} {p0 : GPos} {vt : VisitedTree} :
    ∀ {q : GPos} {d : Nat}, VChain b p0 vt q d →
      ∀ {d' : Nat}, VChain b p0 vt q d' → d = d' := by
  intro q d h
  induction h with
  | root hroot =>
    intro d' h'
    cases h' with
    | root _ => rfl
    | step hch hlook ht hedge => rw [hroot] at hlook; cases hlook
  | step hch hlook ht hedge ih =>
    intro d' h'
    cases h' with
    | root hroot => rw [hroot] at hlook; cases hlook
    | step hch2 hlook2 ht2 hedge2 =>
      rw [hlook] at hlook2
      injection hlook2 with hlook2
      injection hlook2 with hp _ _
      subst hp
      rw [ih hch2]

/-- Every parent chain is a genuine move sequence from the initial position. -/
theorem VChain_ReachN {b : Board} {p0 : GPos} {vt : VisitedTree} :
    ∀ {q : GPos} {d : Nat}, VChain b p0 vt q d → ReachN b p0 d q := by
  intro q d h
  induction h with
  | root _ => rfl
  | step hch hlook ht hedge ih =>
    exact ⟨_, ih, _, ht, _, hedge⟩

theorem head_append_of_concat {α} (l : List α) (x : α) (l' : List α) :
    ((l ++ [x]) ++ l').head? = (l ++ [x]).head? := by
  cases l <;> simp

/-- The `shortest_path` walk along a parent chain of length `d` produces the
root-to-terminal path: `d+1` entries, first at the root, adjacent entries
linked by the recorded `(tix, move)`. -/
theorem shortest_path_aux_chain {b : Board} {p0 : GPos} {vt : VisitedTree} :
    ∀ {q : GPos} {d : Nat}, VChain b p0 vt q d →
      ∀ (fuel : Nat), d < fuel →
      ∀ (tixo : Option Nat) (mvo : Option Move) (acc : List PathEntry),
        path_linked b ((q, tixo, mvo) :: acc) →
        ∃ pre : List PathEntry,
          shortest_path_aux vt fuel q tixo mvo acc =
            some (pre ++ (q, tixo, mvo) :: acc) ∧
          pre.length = d ∧
          path_linked b (pre ++ (q, tixo, mvo) :: acc) ∧
          ∀ e ∈ (pre ++ [(q, tixo, mvo)]).head?, e.1 = p0 := by
  intro q d hchain
  induction hchain with
  | root hroot =>
    intro fuel hf tixo mvo acc hlink
    cases fuel with
    | zero => omega
    | succ fuel =>
      refine ⟨[], ?_, rfl, hlink, ?_⟩
      · rw [spa_succ, hroot]
        rfl
      · simp
  | @step p1 d1 q1 t1 m1 hch hlook ht hedge ih =>
    intro fuel hf tixo mvo acc hlink
    cases fuel with
    | zero => omega
    | succ fuel =>
      rw [spa_succ, hlook]
      have hlink2 : path_linked b ((p1, some t1, some m1) :: (q1, tixo, mvo) :: acc) :=
        List.chain'_cons.mpr ⟨⟨t1, m1, rfl, rfl, ht, hedge⟩, hlink⟩
      obtain ⟨pre, heq, hlen, hlinked, hhead⟩ :=
        ih fuel (by omega) (some t1) (some m1) ((q1, tixo, mvo) :: acc) hlink2
      refine ⟨pre ++ [(p1, some t1, some m1)], ?_, ?_, ?_, ?_⟩
      · show shortest_path_aux vt fuel p1 (some t1) (some m1) ((q1, tixo, mvo) :: acc) =
          some ((pre ++ [(p1, some t1, some m1)]) ++ (q1, tixo, mvo) :: acc)
        rw [heq, List.append_assoc]
        rfl
      · rw [List.length_append, hlen]
        simp
      · rw [List.append_assoc]
        exact hlinked
      · rw [head_append_of_concat]
        exact hhead

/-! ## Claim C6: round-trip of path reconstruction -/

/-- C6: after a successful `solve`, `shortest_path` returns a path whose
first entry is at the initial position, whose last entry is
`(terminal, None, None)`, and in which each entry's recorded
`(tile index, direction)` maps its position to the next entry's position via
a successful `change_pos`. -/
theorem c6_round_trip (b : Board) (sc : Option (GPos → Bool)) (dmax : Option Nat)
    (pb : Bool) (P0 : GPos) (fuel : Nat) (vt : VisitedTree) (lpo : Option GPos)
    (h : solve b sc dmax pb P0 fuel = some (true, vt, lpo)) :
    ∃ lp path, lpo = some lp ∧ shortest_path vt lp = some path ∧
      path_linked b path ∧
      (∀ e ∈ path.head?, e.1 = P0) ∧
      path.getLast? = some (lp, none, none) := by
  unfold solve at h
  have hinv : solver_inv0 b P0 [(P0, 1, Father.start, 0)] [] :=
    Or.inl ⟨rfl, 1, 0, Nat.le_refl 1, rfl⟩
  obtain ⟨lp, f, hlpo, hwf, hget⟩ := solve_aux_true_shape h hinv
  obtain ⟨d, hchain, hdlt⟩ := VChain_exists_lt hwf hget
  obtain ⟨pre, heq, hlen, hlink, hhead⟩ :=
    shortest_path_aux_chain hchain (vt.length + 1) (by omega) none none []
      (by simp [path_linked])
  refine ⟨lp, pre ++ [(lp, none, none)], hlpo, ?_, ?_, ?_, ?_⟩
  · unfold shortest_path
    rw [heq]
  · exact hlink
  · intro e he
    exact hhead e he
  · rw [List.getLast?_concat]

/-- Witness for C6: a one-tile puzzle on a walled two-cell corridor; the solve
succeeds and the reconstructed path is `[(start, 0, nw), (terminal, -, -)]`. -/
theorem c6_witness :
    ∃ lp path, (some [[0]] : Option GPos) = some lp ∧
      shortest_path [([[0]], Father.node [[1]] 0 Move.nw), ([[1]], Father.start)]
        lp = some path ∧
      path_linked (mkBoard [5]) path ∧
      (∀ e ∈ path.head?, e.1 = [[1]]) ∧
      path.getLast? = some (lp, none, none) :=
  c6_round_trip (mkBoard [5]) (some (fun p => decide (p = [[0]]))) none true
    [[1]] 5 [([[0]], Father.node [[1]] 0 Move.nw), ([[1]], Father.start)]
    (some [[0]]) (by decide)

/-! ## Exhaustiveness machinery (claim C7) -/

theorem vtGet_isSome_mono {vt : VisitedTree} {q : GPos} (p : GPos) (f : Father)
    (h : (vtGet vt q).isSome = true) : (vtGet ((p, f) :: vt) q).isSome = true := by
  rcases hv : vtGet vt q with _ | g
  · rw [hv] at h; cases h
  · have := @vtGet_cons_ne_none vt q p f (by rw [hv]; simp)
    rcases hv2 : vtGet ((p, f) :: vt) q with _ | g2
    · exact absurd hv2 this
    · rfl

theorem vtGet_eq_none_iff (vt : VisitedTree) (p : GPos) :
    vtGet vt p = none ↔ p ∉ vt_keys vt := by
  induction vt with
  | nil => simp [vtGet, vt_keys]
  | cons e rest ih =>
    obtain ⟨q, f⟩ := e
    by_cases hqp : q = p
    · subst hqp
      rw [vtGet_cons_self]
      simp only [vt_keys, List.map_cons]
      constructor
      · intro h; cases h
      · intro h; exact absurd (List.mem_cons_self _ _) h
    · rw [vtGet_cons_ne rest f hqp, ih]
      simp only [vt_keys, List.map_cons, List.mem_cons]
      constructor
      · intro h hmem
        rcases hmem with h1 | h1
        · exact hqp h1.symm
        · exact h h1
      · intro h h1
        exact h (Or.inr h1)

theorem vt_wf_nodup {b : Board} {p0 : GPos} :
    ∀ {vt : VisitedTree}, vt_wf b p0 vt → (vt_keys vt).Nodup := by
  intro vt
  induction vt with
  | nil => intro _; simp [vt_keys]
  | cons e rest ih =>
    obtain ⟨p, f⟩ := e
    intro hwf
    obtain ⟨hwfr, hfresh, _⟩ := hwf
    simp only [vt_keys, List.map_cons, List.nodup_cons]
    exact ⟨(vtGet_eq_none_iff rest p).mp hfresh, ih hwfr⟩

/-- A nonempty well-formed visited tree contains the root entry. -/
theorem vt_wf_root {b : Board} {p0 : GPos} :
    ∀ {vt : VisitedTree}, vt_wf b p0 vt → vt ≠ [] → (vtGet vt p0).isSome = true := by
  intro vt
  induction vt with
  | nil => intro _ h; exact absurd rfl h
  | cons e rest ih =>
    obtain ⟨p, f⟩ := e
    intro hwf _
    obtain ⟨hwfr, hfresh, hmatch⟩ := hwf
    cases f with
    | start =>
      obtain ⟨hp0, _⟩ := hmatch
      subst hp0
      rw [vtGet_cons_self]; rfl
    | node p' t m =>
      obtain ⟨hp', _, _⟩ := hmatch
      have hne : rest ≠ [] := by
        intro hr; subst hr; exact hp' rfl
      exact vtGet_isSome_mono p _ (ih hwfr hne)

theorem mem_moves_order (mv : Move) : mv ∈ moves_order := by
  cases mv <;> simp [moves_order]

theorem mem_tix_order_intro {tix prev L : Nat} (h : tix < L) :
    tix ∈ tix_order prev L := by
  unfold tix_order
  rcases Nat.lt_trichotomy tix prev with hlt | heq | hgt
  · exact List.mem_cons_of_mem _ (List.mem_append_left _ (List.mem_range.mpr hlt))
  · exact List.mem_cons.mpr (Or.inl heq)
  · apply List.mem_cons_of_mem
    apply List.mem_append_right
    have hidx : tix - (prev + 1) < ((List.range L).drop (prev + 1)).length := by
      rw [List.length_drop, List.length_range]
      omega
    have hval : ((List.range L).drop (prev + 1))[tix - (prev + 1)] = tix := by
      rw [List.getElem_drop, List.getElem_range]
      omega
    exact hval ▸ List.getElem_mem _

theorem mem_succ_entries_intro {b : Board} {vt : VisitedTree} {pos : GPos}
    {prev dist tix : Nat} {mv : Move} {np : GPos} {bs : Nat}
    (htix : tix < pos.length) (hcp : change_pos b pos tix mv = (some np, bs))
    (hfresh : vtGet vt np = none) :
    (np, bs, Father.node pos tix mv, dist + 1) ∈ succ_entries b vt pos prev dist := by
  unfold succ_entries
  rw [List.mem_flatMap]
  refine ⟨tix, mem_tix_order_intro htix, ?_⟩
  rw [List.mem_filterMap]
  refine ⟨mv, mem_moves_order mv, ?_⟩
  rw [hcp]
  dsimp only
  rw [hfresh]
  rfl

/-- The cover invariant is preserved by each solver transition. -/
theorem covered_requeue {b : Board} {vt : VisitedTree} {pos : GPos} {w : Nat}
    {f : Father} {dist : Nat} {rest : List QEntry}
    (h : covered b ((pos, w, f, dist) :: rest) vt) :
    covered b (rest ++ [(pos, w - 1, f, dist + 1)]) vt := by
  intro p hp s hs
  rcases h p hp s hs with h1 | ⟨e, he, hes⟩
  · exact Or.inl h1
  · rcases List.mem_cons.mp he with h2 | h2
    · subst h2
      exact Or.inr ⟨(pos, w - 1, f, dist + 1),
        List.mem_append_right _ (List.mem_singleton_self _), hes⟩
    · exact Or.inr ⟨e, List.mem_append_left _ h2, hes⟩

theorem covered_drop {b : Board} {vt : VisitedTree} {pos : GPos} {w : Nat}
    {f : Father} {dist : Nat} {rest : List QEntry}
    (h : covered b ((pos, w, f, dist) :: rest) vt)
    (hvis : (vtGet vt pos).isSome = true) :
    covered b rest vt := by
  intro p hp s hs
  rcases h p hp s hs with h1 | ⟨e, he, hes⟩
  · exact Or.inl h1
  · rcases List.mem_cons.mp he with h2 | h2
    · subst h2
      exact Or.inl (hes ▸ hvis)
    · exact Or.inr ⟨e, h2, hes⟩

theorem covered_settle {b : Board} {vt : VisitedTree} {pos : GPos} {w : Nat}
    {f : Father} {dist : Nat} {rest : List QEntry}
    (h : covered b ((pos, w, f, dist) :: rest) vt) :
    covered b (rest ++ succ_entries b ((pos, f) :: vt) pos (father_tix f) dist)
      ((pos, f) :: vt) := by
  intro p hp s hs
  by_cases hppos : p = pos
  · subst hppos
    obtain ⟨tix, htix, mv, hcp1⟩ := hs
    rcases hcp : change_pos b p tix mv with ⟨np?, bs⟩
    rw [hcp] at hcp1
    simp only at hcp1
    subst hcp1
    rcases hv : vtGet ((p, f) :: vt) s with _ | g
    · refine Or.inr ⟨(s, bs, Father.node p tix mv, dist + 1), ?_, rfl⟩
      exact List.mem_append_right _
        (mem_succ_entries_intro htix (by rw [hcp]) hv)
    · exact Or.inl (by simp [hv])
  · have hp' : (vtGet vt p).isSome = true := by
      rcases hv : vtGet vt p with _ | g
      · rw [vtGet_cons_ne vt f (fun hh => hppos hh.symm), hv] at hp
        cases hp
      · rfl
    rcases h p hp' s hs with h1 | ⟨e, he, hes⟩
    · exact Or.inl (vtGet_isSome_mono pos f h1)
    · rcases List.mem_cons.mp he with h2 | h2
      · subst h2
        have hps : pos = s := hes
        subst hps
        exact Or.inl (by simp [vtGet_cons_self])
      · exact Or.inr ⟨e, List.mem_append_left _ h2, hes⟩

/-- With no stopping criterion and no distance bound, any completed `solve`
run reports not-found, its visited tree is well-formed, and it contains every
reachable position. -/
theorem solve_aux_exhaust {b : Board} {p0 : GPos} {pb : Bool} :
    ∀ {fuel : Nat} {Q : List QEntry} {vt : VisitedTree} {lp : Option GPos}
      {r : Bool × VisitedTree × Option GPos},
      solve_aux b none none pb fuel Q vt lp = some r →
      solver_inv0 b p0 Q vt → covered b Q vt →
      r.1 = false ∧ vt_wf b p0 r.2.1 ∧
        (∀ q, Reachable b p0 q → (vtGet r.2.1 q).isSome = true) := by
  intro fuel
  induction fuel with
  | zero => intro Q vt lp r h _ _; cases h
  | succ fuel ih =>
    intro Q vt lp r h hinv hcov
    cases Q with
    | nil =>
      rw [solve_aux_nil] at h
      rcases hinv with ⟨_, w', d', _, hsingle⟩ | ⟨hne, hwf, _⟩
      · cases hsingle
      · injection h with h
        subst h
        refine ⟨rfl, hwf, ?_⟩
        intro q hq
        obtain ⟨n, hn⟩ := hq
        induction n generalizing q with
        | zero => rw [hn]; exact vt_wf_root hwf hne
        | succ n ihn =>
          obtain ⟨p, hp, hedge⟩ := hn
          rcases hcov p (ihn p hp) q hedge with h1 | ⟨e, he, _⟩
          · exact h1
          · cases he
    | cons e rest =>
      obtain ⟨pos, w, f, dist⟩ := e
      rw [solve_aux_cons] at h
      have hd : dmax_truthy none dist = false := rfl
      rw [hd] at h
      simp only [Bool.false_eq_true, if_false] at h
      by_cases h2 : (pb && decide (w > 1)) = true
      · rw [if_pos h2] at h
        have hw2 : 1 < w := by
          rcases Bool.and_eq_true_iff.mp h2 with ⟨_, hb2⟩
          exact of_decide_eq_true hb2
        exact ih h (requeue_preserves hinv hw2) (covered_requeue hcov)
      · rw [if_neg h2] at h
        by_cases h3 : (vtGet vt pos).isSome = true
        · rw [if_pos h3] at h
          exact ih h (drop_preserves hinv h3) (covered_drop hcov h3)
        · rw [if_neg h3] at h
          have hnone : vtGet vt pos = none := by
            rcases hv : vtGet vt pos with _ | g
            · rfl
            · rw [hv] at h3; simp at h3
          have hsc : sc_check none pos = false := rfl
          rw [hsc] at h
          simp only [Bool.false_eq_true, if_false] at h
          exact ih h (settle_preserves rfl hinv hnone).2 (covered_settle hcov)

/-- `solve_aux` results are stable under more fuel. -/
theorem solve_aux_mono {b : Board} {sc : Option (GPos → Bool)}
    {dmax : Option Nat} {pb : Bool} :
    ∀ {fuel : Nat} {Q : List QEntry} {vt : VisitedTree} {lp : Option GPos}
      {r : Bool × VisitedTree × Option GPos},
      solve_aux b sc dmax pb fuel Q vt lp = some r →
      ∀ g, fuel ≤ g → solve_aux b sc dmax pb g Q vt lp = some r := by
  intro fuel
  induction fuel with
  | zero => intro Q vt lp r h; cases h
  | succ fuel ih =>
    intro Q vt lp r h g hg
    rcases g with _ | g
    · omega
    cases Q with
    | nil => rw [solve_aux_nil] at h ⊢; exact h
    | cons e rest =>
      obtain ⟨pos, w, f, dist⟩ := e
      rw [solve_aux_cons] at h ⊢
      by_cases h1 : dmax_truthy dmax dist = true
      · rw [if_pos h1] at h ⊢; exact h
      · rw [if_neg h1] at h ⊢
        by_cases h2 : (pb && decide (w > 1)) = true
        · rw [if_pos h2] at h ⊢
          exact ih h g (by omega)
        · rw [if_neg h2] at h ⊢
          by_cases h3 : (vtGet vt pos).isSome = true
          · rw [if_pos h3] at h ⊢
            exact ih h g (by omega)
          · rw [if_neg h3] at h ⊢
            by_cases h4 : sc_check sc pos = true
            · rw [if_pos h4] at h ⊢; exact h
            · rw [if_neg h4] at h ⊢
              exact ih h g (by omega)

/-! ## Finiteness of the state space -/

theorem enc_list_lt : ∀ l : List Nat, (∀ c ∈ l, c < 26) → enc_list l < 26 ^ l.length := by
  intro l
  induction l with
  | nil => intro _; simp [enc_list]
  | cons c t ih =>
    intro h
    have hc : c < 26 := h c (List.mem_cons_self _ _)
    have ht := ih (fun x hx => h x (List.mem_cons_of_mem _ hx))
    show c + 26 * enc_list t < 26 ^ (t.length + 1)
    rw [pow_succ]
    have h2 : 26 * (enc_list t + 1) ≤ 26 * 26 ^ t.length :=
      Nat.mul_le_mul_left 26 (by omega)
    have h3 : 26 * 26 ^ t.length = 26 ^ t.length * 26 := Nat.mul_comm _ _
    omega

theorem enc_list_inj : ∀ l1 l2 : List Nat, l1.length = l2.length →
    (∀ c ∈ l1, c < 26) → (∀ c ∈ l2, c < 26) →
    enc_list l1 = enc_list l2 → l1 = l2 := by
  intro l1
  induction l1 with
  | nil =>
    intro l2 hlen _ _ _
    cases l2 with
    | nil => rfl
    | cons _ _ => simp at hlen
  | cons c t ih =>
    intro l2 hlen h1 h2 henc
    cases l2 with
    | nil => simp at hlen
    | cons c2 t2 =>
      have hc : c < 26 := h1 c (List.mem_cons_self _ _)
      have hc2 : c2 < 26 := h2 c2 (List.mem_cons_self _ _)
      have henc2 : c + 26 * enc_list t = c2 + 26 * enc_list t2 := henc
      have hcc : c = c2 ∧ enc_list t = enc_list t2 := by omega
      have ht := ih t2 (by simpa using hlen)
        (fun x hx => h1 x (List.mem_cons_of_mem _ hx))
        (fun x hx => h2 x (List.mem_cons_of_mem _ hx)) hcc.2
      rw [hcc.1, ht]

theorem cat_cells_cons (t : Tile) (p : GPos) :
    cat_cells (t :: p) = t ++ cat_cells p := rfl

theorem cat_cells_length : ∀ pos : GPos, (cat_cells pos).length = cell_count pos := by
  intro pos
  induction pos with
  | nil => rfl
  | cons t p ih =>
    rw [cat_cells_cons, List.length_append, ih]
    show t.length + cell_count p = cell_count (t :: p)
    simp [cell_count]

theorem cat_cells_lt (pos : GPos) (h : ∀ t ∈ pos, ∀ c ∈ t, c < 26) :
    ∀ c ∈ cat_cells pos, c < 26 := by
  induction pos with
  | nil => intro c hc; cases hc
  | cons t p ih =>
    intro c hc
    rw [cat_cells_cons, List.mem_append] at hc
    rcases hc with h1 | h1
    · exact h t (List.mem_cons_self _ _) c h1
    · exact ih (fun u hu => h u (List.mem_cons_of_mem _ hu)) c h1

theorem cat_cells_inj : ∀ p q : GPos, p.map List.length = q.map List.length →
    cat_cells p = cat_cells q → p = q := by
  intro p
  induction p with
  | nil =>
    intro q hlen _
    cases q with
    | nil => rfl
    | cons _ _ => simp at hlen
  | cons t p ih =>
    intro q hlen hcat
    cases q with
    | nil => simp at hlen
    | cons u q2 =>
      simp only [List.map_cons, List.cons.injEq] at hlen
      rw [cat_cells_cons, cat_cells_cons] at hcat
      obtain ⟨hta, htb⟩ := List.append_inj hcat hlen.1
      rw [hta, ih q2 hlen.2 htb]

theorem cell_count_of_shape {p0 pos : GPos}
    (h : pos.map List.length = p0.map List.length) :
    cell_count pos = cell_count p0 := by
  unfold cell_count
  rw [h]

theorem length_of_shape {p0 pos : GPos}
    (h : pos.map List.length = p0.map List.length) :
    pos.length = p0.length := by
  have := congrArg List.length h
  simpa using this

/-- A duplicate-free list of positions of the initial shape has at most
`26 ^ cell_count p0` elements. -/
theorem keys_card_bound (p0 : GPos) (l : List GPos) (hnd : l.Nodup)
    (hshape : ∀ p ∈ l, shape_ok p0 p) : l.length ≤ 26 ^ cell_count p0 := by
  have hinj : ∀ x ∈ l, ∀ y ∈ l,
      enc_list (cat_cells x) = enc_list (cat_cells y) → x = y := by
    intro x hx y hy he
    have hsx := hshape x hx
    have hsy := hshape y hy
    have hcat : cat_cells x = cat_cells y := by
      apply enc_list_inj _ _ ?_ (cat_cells_lt x hsx.2) (cat_cells_lt y hsy.2) he
      rw [cat_cells_length, cat_cells_length,
        cell_count_of_shape hsx.1, cell_count_of_shape hsy.1]
    exact cat_cells_inj x y (hsx.1.trans hsy.1.symm) hcat
  have hnd2 : (l.map (fun p => enc_list (cat_cells p))).Nodup :=
    List.Nodup.map_on hinj hnd
  have hbound : ∀ n ∈ l.map (fun p => enc_list (cat_cells p)),
      n < 26 ^ cell_count p0 := by
    intro n hn
    rw [List.mem_map] at hn
    obtain ⟨p, hp, rfl⟩ := hn
    have hsp := hshape p hp
    have := enc_list_lt (cat_cells p) (cat_cells_lt p hsp.2)
    rwa [cat_cells_length, cell_count_of_shape hsp.1] at this
  have hsub : (l.map (fun p => enc_list (cat_cells p))).toFinset ⊆
      Finset.range (26 ^ cell_count p0) := by
    intro n hn
    rw [List.mem_toFinset] at hn
    exact Finset.mem_range.mpr (hbound n hn)
  calc l.length = (l.map (fun p => enc_list (cat_cells p))).length :=
        (List.length_map _ _).symm
    _ = (l.map (fun p => enc_list (cat_cells p))).toFinset.card :=
        (List.toFinset_card_of_nodup hnd2).symm
    _ ≤ (Finset.range (26 ^ cell_count p0)).card := Finset.card_le_card hsub
    _ = 26 ^ cell_count p0 := Finset.card_range _

/-! ## Shape preservation and block-size bound -/

theorem reduceOption_length_of_no_none {l : List (Option Nat)}
    (h : (l.any (fun i => i.isNone)) = false) : l.reduceOption.length = l.length := by
  induction l with
  | nil => rfl
  | cons a t ih =>
    rw [List.any_cons, Bool.or_eq_false_iff] at h
    rcases a with _ | v
    · simp at h
    · rw [List.reduceOption_cons_of_some, List.length_cons, List.length_cons, ih h.2]

theorem set_eq_self_of_getD {α} : ∀ (l : List α) (i : Nat) (v d : α),
    l.getD i d = v → i < l.length → l.set i v = l := by
  intro l
  induction l with
  | nil => intro i v d _ h; simp at h
  | cons a t ih =>
    intro i v d hget hlt
    cases i with
    | zero =>
      have : a = v := hget
      rw [List.set_cons_zero, this]
    | succ n =>
      rw [List.set_cons_succ]
      rw [ih n v d hget (by simpa using hlt)]

theorem getD_map_length (pos : GPos) (tix : Nat) (h : tix < pos.length) :
    (pos.map List.length).getD tix 0 = (pos.getD tix []).length := by
  induction pos generalizing tix with
  | nil => simp at h
  | cons t p ih =>
    cases tix with
    | zero => rfl
    | succ n => exact ih n (by simpa using h)

theorem map_length_set (pos : GPos) (tix : Nat) (u : Tile)
    (hu : u.length = (pos.getD tix []).length) :
    (pos.set tix u).map List.length = pos.map List.length := by
  by_cases htix : tix < pos.length
  · rw [List.map_set]
    apply set_eq_self_of_getD _ _ _ 0
    · rw [getD_map_length pos tix htix, hu]
    · rw [List.length_map]; exact htix
  · rw [List.set_eq_of_length_le (by omega)]

theorem change_pos_aux_map_length {b : Board} {mv : Move} :
    ∀ {fuel : Nat} {pos : GPos} {q : List Nat} {bs : Nat} {p : GPos} {n : Nat},
      change_pos_aux b mv fuel pos q bs = some (some p, n) →
      p.map List.length = pos.map List.length := by
  intro fuel
  induction fuel with
  | zero => intro pos q bs p n h; cases h
  | succ fuel ih =>
    intro pos q bs p n h
    cases q with
    | nil =>
      rw [change_pos_aux_nil] at h
      simp at h
      rw [h.1]
    | cons tix rest =>
      rw [change_pos_aux_cons] at h
      by_cases hf : (move_tile (b.resulting_locs mv) (pos.getD tix [])).any
          (fun i => i.isNone) = true
      · rw [if_pos hf] at h; simp at h
      · rw [if_neg hf] at h
        rw [ih h]
        apply map_length_set
        rw [reduceOption_length_of_no_none (Bool.eq_false_iff.mpr hf)]
        exact List.length_map _ _

theorem change_pos_aux_cells26 {b : Board} (hb : base_compatible b) {mv : Move} :
    ∀ {fuel : Nat} {pos : GPos} {q : List Nat} {bs : Nat} {p : GPos} {n : Nat},
      change_pos_aux b mv fuel pos q bs = some (some p, n) →
      (∀ t ∈ pos, ∀ c ∈ t, c < 26) → ∀ t ∈ p, ∀ c ∈ t, c < 26 := by
  intro fuel
  induction fuel with
  | zero => intro pos q bs p n h; cases h
  | succ fuel ih =>
    intro pos q bs p n h hc
    cases q with
    | nil =>
      rw [change_pos_aux_nil] at h
      simp at h
      rw [← h.1]
      exact hc
    | cons tix rest =>
      rw [change_pos_aux_cons] at h
      by_cases hf : (move_tile (b.resulting_locs mv) (pos.getD tix [])).any
          (fun i => i.isNone) = true
      · rw [if_pos hf] at h; simp at h
      · rw [if_neg hf] at h
        refine ih h ?_
        intro t ht c hct
        rcases List.mem_or_eq_of_mem_set ht with h1 | h1
        · exact hc t h1 c hct
        · subst h1
          obtain ⟨c0, _, hc0⟩ := mem_reduceOption_move_tile hct
          exact resulting_cell_init_lt mv c0 c (hb mv c0 c hc0)

/-- A successful `change_pos` preserves the tile-shape profile and keeps all
cells on-board. -/
theorem change_pos_shape {b : Board} (hb : base_compatible b) {p0 pos : GPos}
    {tix : Nat} {mv : Move} {p : GPos} {n : Nat}
    (h : change_pos b pos tix mv = (some p, n)) (hs : shape_ok p0 pos) :
    shape_ok p0 p := by
  unfold change_pos at h
  rcases hr : change_pos_aux b mv (change_pos_fuel pos) pos [tix] 0 with _ | r
  · rw [hr] at h; exact absurd (congrArg Prod.fst h) (by simp)
  · rw [hr] at h
    simp only [Option.getD_some] at h
    rcases r with ⟨p?, m⟩
    cases h
    exact ⟨(change_pos_aux_map_length hr).trans hs.1,
      change_pos_aux_cells26 hb hr hs.2⟩

theorem change_pos_aux_bs_le {b : Board} {mv : Move} :
    ∀ {fuel : Nat} {pos : GPos} {q : List Nat} {bs : Nat} {p : GPos} {n : Nat},
      change_pos_aux b mv fuel pos q bs = some (some p, n) → n ≤ bs + fuel := by
  intro fuel
  induction fuel with
  | zero => intro pos q bs p n h; cases h
  | succ fuel ih =>
    intro pos q bs p n h
    cases q with
    | nil => rw [change_pos_aux_nil] at h; simp at h; omega
    | cons tix rest =>
      rw [change_pos_aux_cons] at h
      by_cases hf : (move_tile (b.resulting_locs mv) (pos.getD tix [])).any
          (fun i => i.isNone) = true
      · rw [if_pos hf] at h; simp at h
      · rw [if_neg hf] at h
        have := ih h
        omega

/-- Block sizes are bounded by the `change_pos` fuel of the position. -/
theorem change_pos_bs_le {b : Board} {pos : GPos} {tix : Nat} {mv : Move}
    {p : GPos} {n : Nat} (h : change_pos b pos tix mv = (some p, n)) :
    n ≤ change_pos_fuel pos := by
  unfold change_pos at h
  rcases hr : change_pos_aux b mv (change_pos_fuel pos) pos [tix] 0 with _ | r
  · rw [hr] at h; exact absurd (congrArg Prod.fst h) (by simp)
  · rw [hr] at h
    simp only [Option.getD_some] at h
    rcases r with ⟨p?, m⟩
    cases h
    have := change_pos_aux_bs_le hr
    omega

/-! ## Termination of the solver loop -/

theorem q_weight_nil : q_weight [] = 0 := rfl

theorem q_weight_cons (e : QEntry) (l : List QEntry) :
    q_weight (e :: l) = e.2.1 + q_weight l := by
  simp [q_weight]

theorem q_weight_append (l1 l2 : List QEntry) :
    q_weight (l1 ++ l2) = q_weight l1 + q_weight l2 := by
  simp [q_weight]

theorem tix_order_length_le {prev L : Nat} (h : prev ≤ L) :
    (tix_order prev L).length ≤ L + 1 := by
  unfold tix_order
  simp only [List.length_cons, List.length_append, List.length_range,
    List.length_drop]
  omega

theorem succ_entries_length_le {b : Board} {vt : VisitedTree} {pos : GPos}
    {prev dist : Nat} (h : prev ≤ pos.length) :
    (succ_entries b vt pos prev dist).length ≤ 4 * (pos.length + 1) := by
  unfold succ_entries
  rw [List.length_flatMap]
  have hbound : ∀ n ∈ (tix_order prev pos.length).map
      (fun tix => (moves_order.filterMap (fun mv =>
        match change_pos b pos tix mv with
        | (some new_pos, block_size) =>
          if (vtGet vt new_pos).isNone then
            some (new_pos, block_size, Father.node pos tix mv, dist + 1)
          else none
        | (none, _) => none)).length), n ≤ 4 := by
    intro n hn
    rw [List.mem_map] at hn
    obtain ⟨tix, _, rfl⟩ := hn
    exact List.length_filterMap_le _ _
  have hsum := List.sum_le_card_nsmul _ 4 hbound
  rw [List.length_map] at hsum
  have hlen := tix_order_length_le h
  have : (tix_order prev pos.length).length • 4 =
      (tix_order prev pos.length).length * 4 := rfl
  rw [this] at hsum
  calc ((tix_order prev pos.length).map _).sum
      ≤ (tix_order prev pos.length).length * 4 := hsum
    _ ≤ (pos.length + 1) * 4 := Nat.mul_le_mul_right 4 hlen
    _ = 4 * (pos.length + 1) := Nat.mul_comm _ _

theorem succ_entries_weight_le {b : Board} {vt : VisitedTree} {p0 pos : GPos}
    {prev dist : Nat} (hs : shape_ok p0 pos) (hprev : prev ≤ pos.length) :
    q_weight (succ_entries b vt pos prev dist) + 1 ≤ settle_cap p0 := by
  have hF : change_pos_fuel pos =
      27 * cell_count p0 * (p0.length + 1) + 2 := by
    unfold change_pos_fuel
    rw [cell_count_of_shape hs.1, length_of_shape hs.1]
  have hw : ∀ n ∈ (succ_entries b vt pos prev dist).map (fun e => e.2.1),
      n ≤ 27 * cell_count p0 * (p0.length + 1) + 2 := by
    intro n hn
    rw [List.mem_map] at hn
    obtain ⟨e, he, rfl⟩ := hn
    obtain ⟨tix, mv, np, bs, _, hcp, _, rfl⟩ := mem_succ_entries he
    have := change_pos_bs_le hcp
    rw [hF] at this
    exact this
  have hsum := List.sum_le_card_nsmul _ _ hw
  rw [List.length_map] at hsum
  have hlen := @succ_entries_length_le b vt pos prev dist hprev
  have hLL : pos.length = p0.length := length_of_shape hs.1
  unfold q_weight settle_cap
  have hmul : (succ_entries b vt pos prev dist).length *
      (27 * cell_count p0 * (p0.length + 1) + 2) ≤
      (4 * (p0.length + 1)) * (27 * cell_count p0 * (p0.length + 1) + 2) := by
    apply Nat.mul_le_mul_right
    rw [← hLL]
    exact hlen
  have hsmul : (succ_entries b vt pos prev dist).length •
      (27 * cell_count p0 * (p0.length + 1) + 2) =
      (succ_entries b vt pos prev dist).length *
      (27 * cell_count p0 * (p0.length + 1) + 2) := rfl
  rw [hsmul] at hsum
  omega

theorem solver_inv0_w_pos {b : Board} {p0 : GPos} {Q : List QEntry}
    {vt : VisitedTree} (h : solver_inv0 b p0 Q vt) : ∀ e ∈ Q, 1 ≤ e.2.1 := by
  rcases h with ⟨_, w', d', hw', hsingle⟩ | ⟨_, _, hq⟩
  · intro e he
    rw [hsingle] at he
    rcases List.mem_singleton.mp he with rfl
    exact hw'
  · intro e he
    exact (hq e he).1

theorem solver_inv0_prev_le {b : Board} {p0 pos : GPos} {w : Nat} {f : Father}
    {dist : Nat} {rest : List QEntry} {vt : VisitedTree}
    (h : solver_inv0 b p0 ((pos, w, f, dist) :: rest) vt) :
    father_tix f ≤ pos.length := by
  rcases h with ⟨_, w', d', _, hsingle⟩ | ⟨_, _, hq⟩
  · simp only [List.cons.injEq, Prod.mk.injEq] at hsingle
    obtain ⟨⟨_, _, hf2, _⟩, _⟩ := hsingle
    subst hf2
    exact Nat.zero_le _
  · obtain ⟨_, p', t, m, hf, ht, hedge, _⟩ := hq _ (List.mem_cons_self _ _)
    have hf2 : f = Father.node p' t m := hf
    have hedge2 : (change_pos b p' t m).1 = some pos := hedge
    rcases hcp : change_pos b p' t m with ⟨np?, bs⟩
    rw [hcp] at hedge2
    simp only at hedge2
    subst hedge2
    have := change_pos_length hcp
    rw [hf2]
    show t ≤ pos.length
    omega

/-- The shape invariant is preserved by settling. -/
theorem shape_inv_settle {b : Board} (hb : base_compatible b) {p0 : GPos}
    {pos : GPos} {w : Nat} {f : Father} {dist : Nat} {rest : List QEntry}
    {vt : VisitedTree}
    (hsh : shape_inv p0 ((pos, w, f, dist) :: rest) vt)
    (hnone : vtGet vt pos = none) :
    shape_inv p0 (rest ++ succ_entries b ((pos, f) :: vt) pos (father_tix f) dist)
      ((pos, f) :: vt) := by
  obtain ⟨hQ, hvt, hnd⟩ := hsh
  have hpos : shape_ok p0 pos := hQ _ (List.mem_cons_self _ _)
  refine ⟨?_, ?_, ?_⟩
  · intro e he
    rcases List.mem_append.mp he with h1 | h1
    · exact hQ e (List.mem_cons_of_mem _ h1)
    · obtain ⟨tix, mv, np, bs, _, hcp, _, rfl⟩ := mem_succ_entries h1
      exact change_pos_shape hb hcp hpos
  · intro p hp
    by_cases hppos : p = pos
    · subst hppos; exact hpos
    · apply hvt
      rw [vtGet_cons_ne vt f (fun hh => hppos hh.symm)] at hp
      exact hp
  · simp only [vt_keys, List.map_cons, List.nodup_cons]
    exact ⟨(vtGet_eq_none_iff vt pos).mp hnone, hnd⟩

/-- Fuel sufficiency for the solver loop: with fuel above the termination
potential, `solve_aux` always completes. -/
theorem solve_aux_total {b : Board} {p0 : GPos} {sc : Option (GPos → Bool)}
    {dmax : Option Nat} {pb : Bool} (hb : base_compatible b) :
    ∀ {fuel : Nat} {Q : List QEntry} {vt : VisitedTree} {lp : Option GPos},
      solver_inv0 b p0 Q vt → shape_inv p0 Q vt →
      term_measure p0 Q vt < fuel →
      (solve_aux b sc dmax pb fuel Q vt lp).isSome = true := by
  intro fuel
  induction fuel with
  | zero => intro Q vt lp _ _ hm; omega
  | succ fuel ih =>
    intro Q vt lp hinv hsh hm
    cases Q with
    | nil => rw [solve_aux_nil]; rfl
    | cons e rest =>
      obtain ⟨pos, w, f, dist⟩ := e
      rw [solve_aux_cons]
      by_cases h1 : dmax_truthy dmax dist = true
      · rw [if_pos h1]; rfl
      · rw [if_neg h1]
        have hw1 : 1 ≤ w := solver_inv0_w_pos hinv _ (List.mem_cons_self _ _)
        have hqw : q_weight ((pos, w, f, dist) :: rest) = w + q_weight rest :=
          q_weight_cons _ _
        by_cases h2 : (pb && decide (w > 1)) = true
        · rw [if_pos h2]
          have hw2 : 1 < w := by
            rcases Bool.and_eq_true_iff.mp h2 with ⟨_, hb2⟩
            exact of_decide_eq_true hb2
          apply ih (requeue_preserves hinv hw2)
          · obtain ⟨hQ, hvt, hnd⟩ := hsh
            refine ⟨?_, hvt, hnd⟩
            intro e2 he2
            rcases List.mem_append.mp he2 with hh | hh
            · exact hQ e2 (List.mem_cons_of_mem _ hh)
            · rcases List.mem_singleton.mp hh with rfl
              show shape_ok p0 pos
              exact hQ (pos, w, f, dist) (List.mem_cons_self _ _)
          · unfold term_measure at hm ⊢
            rw [hqw] at hm
            rw [q_weight_append, q_weight_cons, q_weight_nil]
            have hproj : ((pos, w - 1, f, dist + 1) : QEntry).2.1 = w - 1 := rfl
            rw [hproj]
            omega
        · rw [if_neg h2]
          by_cases h3 : (vtGet vt pos).isSome = true
          · rw [if_pos h3]
            apply ih (drop_preserves hinv h3)
            · obtain ⟨hQ, hvt, hnd⟩ := hsh
              exact ⟨fun e2 he2 => hQ e2 (List.mem_cons_of_mem _ he2), hvt, hnd⟩
            · unfold term_measure at hm ⊢
              rw [hqw] at hm
              omega
          · rw [if_neg h3]
            have hnone : vtGet vt pos = none := by
              rcases hv : vtGet vt pos with _ | g
              · rfl
              · rw [hv] at h3; simp at h3
            by_cases h4 : sc_check sc pos = true
            · rw [if_pos h4]; rfl
            · rw [if_neg h4]
              have hset := settle_preserves rfl hinv hnone
              have hsh' := shape_inv_settle hb hsh hnone
              apply ih hset.2 hsh'
              -- potential strictly decreases on settling
              have hwf' := hset.1
              have hprev : father_tix f ≤ pos.length := solver_inv0_prev_le hinv
              have hshape_pos : shape_ok p0 pos := hsh.1 _ (List.mem_cons_self _ _)
              have hcap := @succ_entries_weight_le b ((pos, f) :: vt) p0 pos
                (father_tix f) dist hshape_pos hprev
              have hS : vt.length + 1 ≤ 26 ^ cell_count p0 := by
                have := keys_card_bound p0 (vt_keys ((pos, f) :: vt))
                  (vt_wf_nodup hwf')
                  (by
                    intro p hp
                    apply hsh'.2.1
                    rcases hv : vtGet ((pos, f) :: vt) p with _ | g
                    · exact absurd hp ((vtGet_eq_none_iff _ _).mp hv)
                    · rfl)
                simpa [vt_keys] using this
              unfold term_measure at hm ⊢
              rw [q_weight_append]
              have hlen' : ((pos, f) :: vt).length = vt.length + 1 := rfl
              rw [hlen']
              rw [hqw] at hm
              have hsplit : (26 ^ cell_count p0 - vt.length) * settle_cap p0 =
                  (26 ^ cell_count p0 - (vt.length + 1)) * settle_cap p0 +
                    settle_cap p0 := by
                have hsm : 26 ^ cell_count p0 - vt.length =
                    (26 ^ cell_count p0 - (vt.length + 1)) + 1 := by omega
                rw [hsm]; ring
              rw [hsplit] at hm
              omega

/-! ## Claim C7: exhaustiveness with a never-satisfied stopping criterion -/

/-- C7: with `stopping_criterion = None` (never satisfied) and no distance
bound, `solve` terminates with `False`, and the visited tree contains exactly
the positions reachable from the initial position by successful `change_pos`
moves, each stored exactly once (keys are duplicate-free). -/
theorem c7_exhaustiveness (hs : List Nat) (P0 : GPos) (pb : Bool)
    (hinv : pos_invariant (mkBoard hs) P0) :
    ∃ (fuel : Nat) (vt : VisitedTree) (lpo : Option GPos),
      (∀ g, fuel ≤ g →
        solve (mkBoard hs) none none pb P0 g = some (false, vt, lpo)) ∧
      (∀ q, (vtGet vt q).isSome = true ↔ Reachable (mkBoard hs) P0 q) ∧
      (vt_keys vt).Nodup := by
  have hb := mkBoard_base_compatible hs
  have hinv0 : solver_inv0 (mkBoard hs) P0 [(P0, 1, Father.start, 0)] [] :=
    Or.inl ⟨rfl, 1, 0, Nat.le_refl 1, rfl⟩
  have hsh : shape_inv P0 [(P0, 1, Father.start, 0)] [] := by
    refine ⟨?_, ?_, ?_⟩
    · intro e he
      rcases List.mem_singleton.mp he with rfl
      exact ⟨rfl, fun t ht c hc => (hinv.1 t ht c hc).1⟩
    · intro p hp; simp [vtGet] at hp
    · simp [vt_keys]
  have hcov : covered (mkBoard hs) [(P0, 1, Father.start, 0)] [] := by
    intro p hp; simp [vtGet] at hp
  set fuel := term_measure P0 [(P0, 1, Father.start, 0)] [] + 1 with hfuel
  have htot := @solve_aux_total (mkBoard hs) P0 none none pb hb fuel
    [(P0, 1, Father.start, 0)] [] none hinv0 hsh (by omega)
  rcases hr : solve_aux (mkBoard hs) none none pb fuel
      [(P0, 1, Father.start, 0)] [] none with _ | r
  · rw [hr] at htot; cases htot
  · obtain ⟨hfalse, hwf, hcomplete⟩ := solve_aux_exhaust hr hinv0 hcov
    obtain ⟨b1, vt, lpo⟩ := r
    have hb1 : b1 = false := hfalse
    subst hb1
    refine ⟨fuel, vt, lpo, ?_, ?_, vt_wf_nodup hwf⟩
    · intro g hg
      unfold solve
      exact solve_aux_mono hr g hg
    · intro q
      constructor
      · intro hq
        rcases hv : vtGet vt q with _ | f
        · rw [hv] at hq; cases hq
        · obtain ⟨d, hch, _⟩ := VChain_exists_lt hwf hv
          exact ⟨d, VChain_ReachN hch⟩
      · exact hcomplete q

/-- Witness for C7: the two-cell corridor puzzle; both positions are visited
exactly once and the solver reports not-found. -/
theorem c7_witness :
    pos_invariant (mkBoard [5]) [[1]] ∧
    ∃ (fuel : Nat) (vt : VisitedTree) (lpo : Option GPos),
      (∀ g, fuel ≤ g →
        solve (mkBoard [5]) none none false [[1]] g = some (false, vt, lpo)) ∧
      (∀ q, (vtGet vt q).isSome = true ↔ Reachable (mkBoard [5]) [[1]] q) ∧
      (vt_keys vt).Nodup :=
  ⟨by decide, c7_exhaustiveness [5] [[1]] false (by decide)⟩

/-! ## Breadth-first optimality machinery (claim C1) -/

/-- In a well-formed tree, the father referenced by any settled entry is
itself settled. -/
theorem vt_wf_father {b : Board} {p0 : GPos} :
    ∀ {vt : VisitedTree}, vt_wf b p0 vt →
      ∀ {q p' : GPos} {t : Nat} {m : Move},
        vtGet vt q = some (Father.node p' t m) → vtGet vt p' ≠ none := by
  intro vt
  induction vt with
  | nil => intro _ q p' t m h; cases h
  | cons e rest ih =>
    obtain ⟨p, f0⟩ := e
    intro hwf q p' t m hget
    obtain ⟨hwfr, hfresh, hmatch⟩ := hwf
    by_cases hpq : p = q
    · subst hpq
      rw [vtGet_cons_self] at hget
      injection hget with hget
      subst hget
      obtain ⟨hp', _, _⟩ := hmatch
      exact vtGet_cons_ne_none p _ hp'
    · rw [vtGet_cons_ne rest f0 hpq] at hget
      exact vtGet_cons_ne_none p f0 (ih hwfr hget)

/-- Chains in an extended tree either end at the fresh key or avoid it. -/
theorem VChain_cons_cases {b : Board} {p0 : GPos} {vt : VisitedTree}
    {pos : GPos} {f : Father} (hwf : vt_wf b p0 vt)
    (hfresh : vtGet vt pos = none) :
    ∀ {q : GPos} {d : Nat}, VChain b p0 ((pos, f) :: vt) q d →
      q = pos ∨ VChain b p0 vt q d := by
  intro q d hch
  induction hch with
  | root hroot =>
    by_cases hp : pos = p0
    · exact Or.inl hp.symm
    · rw [vtGet_cons_ne vt f hp] at hroot
      exact Or.inr (VChain.root hroot)
  | @step p1 d1 q1 t m hch1 hlook ht hedge ih =>
    by_cases hq : q1 = pos
    · exact Or.inl hq
    · rw [vtGet_cons_ne vt f (fun hh => hq hh.symm)] at hlook
      rcases ih with h1 | h1
      · exfalso
        have := vt_wf_father hwf hlook
        rw [h1] at this
        exact this hfresh
      · exact Or.inr (VChain.step h1 hlook ht hedge)

/-- Breadth-first cover: every position reachable in `n` moves is either
settled or continued from a queue entry within the distance budget. -/
theorem bfs_cover {b : Board} {p0 : GPos} {vt : VisitedTree} {Q : List QEntry}
    (hne : vt ≠ []) (hwf : vt_wf b p0 vt)
    (hexp : expanded_dist b p0 vt Q) (hmin : min_settle b p0 vt) :
    ∀ n q, ReachN b p0 n q → (vtGet vt q).isSome = true ∨
      ∃ e ∈ Q, ∃ k, ReachN b e.1 k q ∧ e.2.2.2 + k ≤ n := by
  intro n
  induction n with
  | zero =>
    intro q hq
    rw [hq]
    exact Or.inl (vt_wf_root hwf hne)
  | succ n ih =>
    intro q hq
    obtain ⟨p, hp, hedge⟩ := hq
    rcases ih p hp with h1 | ⟨e, he, k, hk, hband⟩
    · rcases hv : vtGet vt p with _ | fp
      · rw [hv] at h1; cases h1
      · obtain ⟨dp, hch, _⟩ := VChain_exists_lt hwf hv
        rcases hexp p dp hch q hedge with h2 | ⟨w2, f2, hmem⟩
        · exact Or.inl h2
        · refine Or.inr ⟨(q, w2, f2, dp + 1), hmem, 0, rfl, ?_⟩
          have := hmin p dp n hch hp
          show dp + 1 + 0 ≤ n + 1
          omega
    · exact Or.inr ⟨e, he, k + 1, ⟨p, hk, hedge⟩, by omega⟩

/-- `q_sorted` head minimality. -/
theorem q_sorted_head_le {Q : List QEntry} (hs : q_sorted Q) {e0 : QEntry}
    {rest : List QEntry} (hQ : Q = e0 :: rest) :
    ∀ e ∈ Q, e0.2.2.2 ≤ e.2.2.2 := by
  subst hQ
  intro e he
  rcases List.mem_cons.mp he with rfl | h1
  · exact Nat.le_refl _
  · exact (List.pairwise_cons.mp hs).1 e h1

theorem pairwise_of_const_dist {c : Nat} :
    ∀ {l : List QEntry}, (∀ e ∈ l, e.2.2.2 = c) → q_sorted l := by
  intro l
  induction l with
  | nil => intro _; exact List.Pairwise.nil
  | cons e t ih =>
    intro h
    refine List.pairwise_cons.mpr ⟨?_, ih (fun x hx => h x (List.mem_cons_of_mem _ hx))⟩
    intro x hx
    rw [h e (List.mem_cons_self _ _), h x (List.mem_cons_of_mem _ hx)]

theorem succ_entries_dist_eq {b : Board} {vt : VisitedTree} {pos : GPos}
    {prev dist : Nat} : ∀ e ∈ succ_entries b vt pos prev dist, e.2.2.2 = dist + 1 := by
  intro e he
  obtain ⟨tix, mv, np, bs, _, _, _, rfl⟩ := mem_succ_entries he
  rfl

/-- When an unvisited entry reaches the queue front, its recorded distance is
minimal among all move sequences reaching its position. -/
theorem settle_dist_min {b : Board} {p0 : GPos} {vt : VisitedTree}
    {pos : GPos} {w : Nat} {f : Father} {dist : Nat} {rest : List QEntry}
    (hne : vt ≠ []) (hwf : vt_wf b p0 vt)
    (hexp : expanded_dist b p0 vt ((pos, w, f, dist) :: rest))
    (hmin : min_settle b p0 vt)
    (hsorted : q_sorted ((pos, w, f, dist) :: rest))
    (hnone : vtGet vt pos = none) :
    ∀ n, ReachN b p0 n pos → dist ≤ n := by
  intro n hn
  rcases bfs_cover hne hwf hexp hmin n pos hn with h1 | ⟨e, he, k, _, hband⟩
  · rw [hnone] at h1; cases h1
  · have hhead := q_sorted_head_le hsorted rfl e he
    show ((pos, w, f, dist) : QEntry).2.2.2 ≤ n
    omega

/-- The settled position's chain in the extended tree has exactly the
recorded distance. -/
theorem settle_chain_vt {b : Board} {p0 : GPos} {vt : VisitedTree}
    {pos : GPos} {w : Nat} {f : Father} {dist : Nat}
    (hdist : q_entry_dist b p0 vt (pos, w, f, dist))
    (hnode : q_entry_node_ok b vt (pos, w, f, dist))
    (hnone : vtGet vt pos = none) :
    VChain b p0 ((pos, f) :: vt) pos dist := by
  obtain ⟨_, p', t, m, hf, ht, hedge, _⟩ := hnode
  have hf2 : f = Father.node p' t m := hf
  rcases hdist with ⟨hfs, _, _⟩ | ⟨p2, t2, m2, d', hf3, hch, hd, ht2, hedge2⟩
  · exact absurd (hf2 ▸ hfs) (by simp)
  · have hf4 : f = Father.node p2 t2 m2 := hf3
    have hd2 : dist = d' + 1 := hd
    have hedge3 : (change_pos b p2 t2 m2).1 = some pos := hedge2
    rw [hd2]
    exact VChain.step (VChain_mono hch pos f hnone)
      (by rw [vtGet_cons_self, hf4]) ht2 hedge3

theorem settle_chain_unique {b : Board} {p0 : GPos} {vt : VisitedTree}
    {pos : GPos} {w : Nat} {f : Father} {dist : Nat}
    (hwf : vt_wf b p0 vt)
    (hdist : q_entry_dist b p0 vt (pos, w, f, dist))
    (hnode : q_entry_node_ok b vt (pos, w, f, dist))
    (hnone : vtGet vt pos = none) :
    ∀ dq, VChain b p0 ((pos, f) :: vt) pos dq → dq = dist := by
  obtain ⟨_, p', t, m, hf, ht, hedge, hp'⟩ := hnode
  have hf2 : f = Father.node p' t m := hf
  rcases hdist with ⟨hfs, _, _⟩ | ⟨p2, t2, m2, d', hf3, hch, hd, _, _⟩
  · exact absurd (hf2 ▸ hfs) (by simp)
  · have hf4 : f = Father.node p2 t2 m2 := hf3
    have hd2 : dist = d' + 1 := hd
    intro dq hdq
    cases hdq with
    | root hroot =>
      rw [vtGet_cons_self, hf4] at hroot
      cases hroot
    | @step p1 d1 q1 t1 m1 hch1 hlook ht1 hedge1 =>
      rw [vtGet_cons_self, hf4] at hlook
      injection hlook with hlook
      injection hlook with hpp htt hmm
      subst hpp htt hmm
      rcases VChain_cons_cases hwf hnone hch1 with h1 | h1
      · exfalso
        have hpe := hf2.symm.trans hf4
        injection hpe with hpp2 htt2 hmm2
        have hfresh2 : vtGet vt p2 ≠ none := hpp2 ▸ hp'
        rw [h1] at hfresh2
        exact hfresh2 hnone
      · rw [VChain_functional h1 hch, hd2]

/-- Full preservation of the breadth-first invariant by a settle step that
does not satisfy the stopping predicate. -/
theorem bfs_settle_preserves {b : Board} {p0 : GPos} {stop : GPos → Bool}
    {vt : VisitedTree} {pos : GPos} {w : Nat} {f : Father} {dist : Nat}
    {rest : List QEntry}
    (hne : vt ≠ []) (hwf : vt_wf b p0 vt)
    (hnodes : ∀ e ∈ (pos, w, f, dist) :: rest, q_entry_node_ok b vt e)
    (hdists : ∀ e ∈ (pos, w, f, dist) :: rest, q_entry_dist b p0 vt e)
    (hsorted : q_sorted ((pos, w, f, dist) :: rest))
    (hamp : q_amp ((pos, w, f, dist) :: rest))
    (hexp : expanded_dist b p0 vt ((pos, w, f, dist) :: rest))
    (hmin : min_settle b p0 vt)
    (hny : ∀ p, (vtGet vt p).isSome = true → stop p = false)
    (hnone : vtGet vt pos = none)
    (hstop : stop pos = false) :
    bfs_inv b p0 stop
      (rest ++ succ_entries b ((pos, f) :: vt) pos (father_tix f) dist)
      ((pos, f) :: vt) := by
  have hinv0 : solver_inv0 b p0 ((pos, w, f, dist) :: rest) vt :=
    Or.inr ⟨hne, hwf, hnodes⟩
  have hset := settle_preserves rfl hinv0 hnone
  have hwf' : vt_wf b p0 ((pos, f) :: vt) := hset.1
  have hnodes' : ∀ e ∈ rest ++ succ_entries b ((pos, f) :: vt) pos (father_tix f) dist,
      q_entry_node_ok b ((pos, f) :: vt) e := by
    rcases hset.2 with ⟨hvt', _⟩ | ⟨_, _, hq⟩
    · cases hvt'
    · exact hq
  have hchain := settle_chain_vt (hdists _ (List.mem_cons_self _ _))
    (hnodes _ (List.mem_cons_self _ _)) hnone
  have hunique := settle_chain_unique hwf (hdists _ (List.mem_cons_self _ _))
    (hnodes _ (List.mem_cons_self _ _)) hnone
  have hdmin := settle_dist_min hne hwf hexp hmin hsorted hnone
  refine Or.inr ⟨by simp, hwf', hnodes', ?_, ?_, ?_, ?_, ?_, ?_⟩
  · -- distance validity of the new queue
    intro e he
    rcases List.mem_append.mp he with h1 | h1
    · rcases hdists e (List.mem_cons_of_mem _ h1) with h2 | ⟨p', t, m, d', hf3, hch, hd, ht2, hedge2⟩
      · exact Or.inl h2
      · exact Or.inr ⟨p', t, m, d', hf3, VChain_mono hch pos f hnone, hd, ht2, hedge2⟩
    · obtain ⟨tix, mv, np, bs, htix, hcp, hfresh, rfl⟩ := mem_succ_entries h1
      by_cases hL : tix < pos.length
      · exact Or.inr ⟨pos, tix, mv, dist, rfl, hchain, rfl, hL, by rw [hcp]⟩
      · exfalso
        have := @change_pos_oob b pos tix mv (show pos.length ≤ tix by omega)
        rw [this] at hcp
        have hnp : np = pos := by simpa using (congrArg Prod.fst hcp).symm
        subst hnp
        rw [vtGet_cons_self] at hfresh
        cases hfresh
  · -- sortedness
    rw [q_sorted, List.pairwise_append]
    refine ⟨(List.pairwise_cons.mp hsorted).2, pairwise_of_const_dist succ_entries_dist_eq, ?_⟩
    intro e1 he1 e2 he2
    rw [succ_entries_dist_eq e2 he2]
    have := hamp _ rfl e1 (List.mem_cons_of_mem _ he1)
    exact this
  · -- amplitude
    intro e0 he0 e he
    rcases hQ' : rest ++ succ_entries b ((pos, f) :: vt) pos (father_tix f) dist
      with _ | ⟨e0', rest'⟩
    · rw [hQ'] at he; cases he
    · rw [hQ'] at he0
      simp only [List.head?_cons, Option.mem_def, Option.some.injEq] at he0
      have hd0 : dist ≤ e0'.2.2.2 := by
        have hmem : e0' ∈ rest ++
            succ_entries b ((pos, f) :: vt) pos (father_tix f) dist := by
          rw [hQ']; exact List.mem_cons_self _ _
        rcases List.mem_append.mp hmem with h1 | h1
        · exact q_sorted_head_le hsorted rfl _ (List.mem_cons_of_mem _ h1)
        · rw [succ_entries_dist_eq _ h1]; omega
      rcases List.mem_append.mp he with h1 | h1
      · have hamp2 : e.2.2.2 ≤ dist + 1 := hamp _ rfl e (List.mem_cons_of_mem _ h1)
        rw [← he0]
        omega
      · rw [succ_entries_dist_eq _ h1, ← he0]
        omega
  · -- expanded
    intro p dp hch s hs
    rcases VChain_cons_cases hwf hnone hch with h1 | h1
    · subst h1
      have hdp : dp = dist := hunique dp hch
      subst hdp
      obtain ⟨tix, htix, mv, hcp1⟩ := hs
      rcases hcp : change_pos b p tix mv with ⟨np?, bs⟩
      rw [hcp] at hcp1
      simp only at hcp1
      subst hcp1
      rcases hv : vtGet ((p, f) :: vt) s with _ | g
      · refine Or.inr ⟨bs, Father.node p tix mv, List.mem_append_right _ ?_⟩
        exact mem_succ_entries_intro htix (by rw [hcp]) hv
      · exact Or.inl (by simp [hv])
    · rcases hexp p dp h1 s hs with h2 | ⟨w2, f2, hmem⟩
      · exact Or.inl (vtGet_isSome_mono pos f h2)
      · rcases List.mem_cons.mp hmem with h3 | h3
        · have hsp : s = pos := congrArg (·.1) h3
          have hdd : dp + 1 = dist := congrArg (·.2.2.2) h3
          subst hsp
          exact Or.inl (by rw [vtGet_cons_self]; rfl)
        · exact Or.inr ⟨w2, f2, List.mem_append_left _ h3⟩
  · -- minimal settling
    intro q dq n hch hn
    rcases VChain_cons_cases hwf hnone hch with h1 | h1
    · subst h1
      rw [hunique dq hch]
      exact hdmin n hn
    · exact hmin q dq n h1 hn
  · -- no settled position satisfies the predicate
    intro p hp
    by_cases hpp : p = pos
    · subst hpp; exact hstop
    · apply hny
      rw [vtGet_cons_ne vt f (fun hh => hpp hh.symm)] at hp
      exact hp

theorem bfs_drop_preserves {b : Board} {p0 : GPos} {stop : GPos → Bool}
    {vt : VisitedTree} {pos : GPos} {w : Nat} {f : Father} {dist : Nat}
    {rest : List QEntry}
    (hinv : bfs_inv b p0 stop ((pos, w, f, dist) :: rest) vt)
    (hvis : (vtGet vt pos).isSome = true) :
    bfs_inv b p0 stop rest vt := by
  rcases hinv with ⟨hvt, _⟩ | ⟨hne, hwf, hnodes, hdists, hsorted, hamp, hexp, hmin, hny⟩
  · subst hvt; simp [vtGet] at hvis
  · refine Or.inr ⟨hne, hwf, fun e he => hnodes e (List.mem_cons_of_mem _ he),
      fun e he => hdists e (List.mem_cons_of_mem _ he),
      (List.pairwise_cons.mp hsorted).2, ?_, ?_, hmin, hny⟩
    · intro e0 he0 e he
      rcases hQ : rest with _ | ⟨e0', rest'⟩
      · rw [hQ] at he; cases he
      · rw [hQ] at he0
        simp only [List.head?_cons, Option.mem_def, Option.some.injEq] at he0
        have hd0 : dist ≤ e0'.2.2.2 :=
          q_sorted_head_le hsorted rfl _ (by rw [hQ]; exact List.mem_cons_of_mem _ (List.mem_cons_self _ _))

        have hamp2 : e.2.2.2 ≤ dist + 1 := hamp _ rfl e (List.mem_cons_of_mem _ he)
        rw [← he0]
        omega
    · intro p dp hch s hs
      rcases hexp p dp hch s hs with h1 | ⟨w2, f2, hmem⟩
      · exact Or.inl h1
      · rcases List.mem_cons.mp hmem with h3 | h3
        · have hsp : s = pos := congrArg (·.1) h3
          subst hsp
          exact Or.inl hvis
        · exact Or.inr ⟨w2, f2, h3⟩

/-- Settling the initial position establishes the full breadth-first
invariant. -/
theorem bfs_settle_first {b : Board} {p0 : GPos} {stop : GPos → Bool}
    (hstop : stop p0 = false) :
    bfs_inv b p0 stop
      (succ_entries b ((p0, Father.start) :: []) p0 0 0)
      ((p0, Father.start) :: []) := by
  have hwf' : vt_wf b p0 ((p0, Father.start) :: []) := ⟨trivial, rfl, rfl, rfl⟩
  have hroot : VChain b p0 ((p0, Father.start) :: []) p0 0 :=
    VChain.root (vtGet_cons_self _ _ _)
  have hchain_only : ∀ q dq, VChain b p0 ((p0, Father.start) :: []) q dq →
      q = p0 ∧ dq = 0 := by
    intro q dq hch
    cases hch with
    | root _ => exact ⟨rfl, rfl⟩
    | @step p1 d1 q1 t1 m1 hch1 hlook ht1 hedge1 =>
      exfalso
      by_cases hq : p0 = q
      · subst hq; rw [vtGet_cons_self] at hlook; cases hlook
      · rw [vtGet_cons_ne _ _ hq] at hlook; cases hlook
  refine Or.inr ⟨by simp, hwf', fun e he => succ_entries_node_ok e he, ?_, ?_, ?_, ?_, ?_, ?_⟩
  · intro e he
    obtain ⟨tix, mv, np, bs, htix, hcp, hfresh, rfl⟩ := mem_succ_entries he
    by_cases hL : tix < p0.length
    · exact Or.inr ⟨p0, tix, mv, 0, rfl, hroot, rfl, hL, by rw [hcp]⟩
    · exfalso
      have := @change_pos_oob b p0 tix mv (show p0.length ≤ tix by omega)
      rw [this] at hcp
      have hnp : np = p0 := by simpa using (congrArg Prod.fst hcp).symm
      subst hnp
      rw [vtGet_cons_self] at hfresh
      cases hfresh
  · exact pairwise_of_const_dist succ_entries_dist_eq
  · intro e0 he0 e he
    rw [succ_entries_dist_eq e he]
    have := succ_entries_dist_eq e0 (List.mem_of_mem_head? he0)
    omega
  · intro p dp hch s hs
    obtain ⟨hp, hdp⟩ := hchain_only p dp hch
    subst hp hdp
    obtain ⟨tix, htix, mv, hcp1⟩ := hs
    rcases hcp : change_pos b p tix mv with ⟨np?, bs⟩
    rw [hcp] at hcp1
    simp only at hcp1
    subst hcp1
    rcases hv : vtGet ((p, Father.start) :: []) s with _ | g
    · exact Or.inr ⟨bs, Father.node p tix mv,
        mem_succ_entries_intro htix (by rw [hcp]) hv⟩
    · exact Or.inl (by simp [hv])
  · intro q dq n hch _
    rw [(hchain_only q dq hch).2]
    exact Nat.zero_le n
  · intro p hp
    by_cases hpp : p = p0
    · subst hpp; exact hstop
    · rw [vtGet_cons_ne _ _ (fun hh => hpp hh.symm)] at hp
      cases hp

/-- Master breadth-first soundness: from any state satisfying `bfs_inv`, a
completed run with `penalize_blocks = False` and no distance bound either
succeeds with a terminal settled at minimal distance among all reachable
stop-satisfying positions, or fails and no reachable position satisfies the
stopping predicate. -/
theorem bfs_main {b : Board} {p0 : GPos} {stop : GPos → Bool} :
    ∀ {fuel : Nat} {Q : List QEntry} {vt : VisitedTree} {lp : Option GPos}
      {r : Bool × VisitedTree × Option GPos},
      solve_aux b (some stop) none false fuel Q vt lp = some r →
      bfs_inv b p0 stop Q vt →
      (r.1 = true → ∃ lp2 d, r.2.2 = some lp2 ∧ vt_wf b p0 r.2.1 ∧
        VChain b p0 r.2.1 lp2 d ∧ stop lp2 = true ∧
        (∀ n q, ReachN b p0 n q → stop q = true → d ≤ n)) ∧
      (r.1 = false → ∀ n q, ReachN b p0 n q → stop q = false) := by
  intro fuel
  induction fuel with
  | zero => intro Q vt lp r h _; cases h
  | succ fuel ih =>
    intro Q vt lp r h hinv
    cases Q with
    | nil =>
      rw [solve_aux_nil] at h
      injection h with h
      subst h
      rcases hinv with ⟨_, hQ⟩ | ⟨hne, hwf, _, _, _, _, hexp, hmin, hny⟩
      · cases hQ
      · refine ⟨(fun ht => nomatch ht), fun _ n q hq => ?_⟩
        rcases bfs_cover hne hwf hexp hmin n q hq with h1 | ⟨e, he, _⟩
        · exact hny q h1
        · cases he
    | cons e rest =>
      obtain ⟨pos, w, f, dist⟩ := e
      rw [solve_aux_cons] at h
      have hd : dmax_truthy none dist = false := rfl
      rw [hd] at h
      simp only [Bool.false_eq_true, if_false] at h
      have h2 : (false && decide (w > 1)) = false := Bool.false_and _
      rw [h2] at h
      simp only [Bool.false_eq_true, if_false] at h
      by_cases h3 : (vtGet vt pos).isSome = true
      · rw [if_pos h3] at h
        exact ih h (bfs_drop_preserves hinv h3)
      · rw [if_neg h3] at h
        have hnone : vtGet vt pos = none := by
          rcases hv : vtGet vt pos with _ | g
          · rfl
          · rw [hv] at h3; simp at h3
        have hsc : sc_check (some stop) pos = stop pos := rfl
        rw [hsc] at h
        by_cases h4 : stop pos = true
        · rw [if_pos h4] at h
          injection h with h
          subst h
          refine ⟨fun _ => ⟨pos, dist, rfl, ?_, ?_, h4, ?_⟩, (fun hf => nomatch hf)⟩
          · -- well-formedness of the extended tree
            rcases hinv with ⟨hvt, hQ⟩ | ⟨hne, hwf, hnodes, _, _, _, _, _, _⟩
            · subst hvt
              simp only [List.cons.injEq, Prod.mk.injEq] at hQ
              obtain ⟨⟨hp, _, hff, _⟩, _⟩ := hQ
              subst hp
              exact ⟨trivial, rfl, by rw [hff]; exact ⟨rfl, rfl⟩⟩
            · exact (settle_preserves rfl (Or.inr ⟨hne, hwf, hnodes⟩) hnone).1
          · -- parent chain of the terminal with the recorded distance
            rcases hinv with ⟨hvt, hQ⟩ | ⟨_, _, hnodes, hdists, _, _, _, _, _⟩
            · subst hvt
              simp only [List.cons.injEq, Prod.mk.injEq] at hQ
              obtain ⟨⟨hp, _, hff, hdd⟩, _⟩ := hQ
              subst hp
              rw [hdd]
              exact VChain.root (by rw [hff]; exact vtGet_cons_self _ _ _)
            · exact settle_chain_vt (hdists _ (List.mem_cons_self _ _))
                (hnodes _ (List.mem_cons_self _ _)) hnone
          · -- minimality of the recorded distance
            rcases hinv with ⟨hvt, hQ⟩ | ⟨hne, hwf, _, _, hsorted, _, hexp, hmin, hny⟩
            · simp only [List.cons.injEq, Prod.mk.injEq] at hQ
              obtain ⟨⟨_, _, _, hdd⟩, _⟩ := hQ
              intro n q _ _
              rw [hdd]
              exact Nat.zero_le n
            · intro n q hq hstopq
              rcases bfs_cover hne hwf hexp hmin n q hq with h5 | ⟨e, he, k, _, hband⟩
              · rw [hny q h5] at hstopq; cases hstopq
              · have := q_sorted_head_le hsorted rfl e he
                show ((pos, w, f, dist) : QEntry).2.2.2 ≤ n
                omega
        · have h4' : stop pos = false := by
            rcases hb4 : stop pos with _ | _
            · rfl
            · exact absurd hb4 h4
          rw [if_neg h4] at h
          refine ih h ?_
          rcases hinv with ⟨hvt, hQ⟩ | ⟨hne, hwf, hnodes, hdists, hsorted, hamp, hexp, hmin, hny⟩
          · subst hvt
            simp only [List.cons.injEq, Prod.mk.injEq] at hQ
            obtain ⟨⟨hp, _, hff, hdd⟩, hrest⟩ := hQ
            subst hp hrest
            rw [hff, hdd]
            exact bfs_settle_first h4'
          · exact bfs_settle_preserves hne hwf hnodes hdists hsorted hamp
              hexp hmin hny hnone h4'

/-- C1: on any board, from any valid initial position from which some
position satisfying the stopping predicate is reachable, `solve` with
`penalize_blocks = False` (and no distance bound) returns `True` for all
sufficiently large fuel, and the path reconstructed by `shortest_path` is
optimal: no sequence of legal moves (edges accepted by `change_pos`) from
the initial position to any stop-satisfying position uses fewer moves than
the reconstructed path. -/
theorem c1_bfs_optimality (hs : List Nat) (P0 : GPos) (stop : GPos → Bool)
    (hinv : pos_invariant (mkBoard hs) P0)
    (hreach : ∃ n q, ReachN (mkBoard hs) P0 n q ∧ stop q = true) :
    ∃ (fuel : Nat) (vt : VisitedTree) (lp : GPos) (path : List PathEntry),
      (∀ g, fuel ≤ g →
        solve (mkBoard hs) (some stop) none false P0 g = some (true, vt, some lp)) ∧
      shortest_path vt lp = some path ∧
      stop lp = true ∧
      path_linked (mkBoard hs) path ∧
      (∀ e ∈ path.head?, e.1 = P0) ∧
      path.getLast? = some (lp, none, none) ∧
      (∀ n q, ReachN (mkBoard hs) P0 n q → stop q = true →
        path.length - 1 ≤ n) := by
  have hb := mkBoard_base_compatible hs
  have hinv0 : solver_inv0 (mkBoard hs) P0 [(P0, 1, Father.start, 0)] [] :=
    Or.inl ⟨rfl, 1, 0, Nat.le_refl 1, rfl⟩
  have hsh : shape_inv P0 [(P0, 1, Father.start, 0)] [] := by
    refine ⟨?_, ?_, ?_⟩
    · intro e he
      rcases List.mem_singleton.mp he with rfl
      exact ⟨rfl, fun t ht c hc => (hinv.1 t ht c hc).1⟩
    · intro p hp; simp [vtGet] at hp
    · simp [vt_keys]
  set fuel := term_measure P0 [(P0, 1, Father.start, 0)] [] + 1 with hfuel
  have htot := @solve_aux_total (mkBoard hs) P0 (some stop) none false hb fuel
    [(P0, 1, Father.start, 0)] [] none hinv0 hsh (by omega)
  rcases hr : solve_aux (mkBoard hs) (some stop) none false fuel
      [(P0, 1, Father.start, 0)] [] none with _ | r
  · rw [hr] at htot; cases htot
  · have hbfs : bfs_inv (mkBoard hs) P0 stop [(P0, 1, Father.start, 0)] [] :=
      Or.inl ⟨rfl, rfl⟩
    obtain ⟨htrue, hfalse⟩ := bfs_main hr hbfs
    obtain ⟨b1, vt2, lpo⟩ := r
    cases b1 with
    | false =>
      exfalso
      obtain ⟨n, q, hq, hstopq⟩ := hreach
      rw [hfalse rfl n q hq] at hstopq
      cases hstopq
    | true =>
      obtain ⟨lp2, d, hlpo, hwf, hchain, hstop2, hminim⟩ := htrue rfl
      have hlpo2 : lpo = some lp2 := hlpo
      subst hlpo2
      have hwf2 : vt_wf (mkBoard hs) P0 vt2 := hwf
      have hchain2 : VChain (mkBoard hs) P0 vt2 lp2 d := hchain
      have hget : ∃ f2, vtGet vt2 lp2 = some f2 := by
        cases hchain2 with
        | root hroot => exact ⟨_, hroot⟩
        | step hch hlook ht hedge => exact ⟨_, hlook⟩
      obtain ⟨f2, hget2⟩ := hget
      obtain ⟨d', hch', hlt⟩ := VChain_exists_lt hwf2 hget2
      have hdd : d = d' := VChain_functional hchain2 hch'
      obtain ⟨pre, heq, hlen, hlink, hhead⟩ :=
        shortest_path_aux_chain hchain2 (vt2.length + 1) (by omega) none none []
          (by simp [path_linked])
      refine ⟨fuel, vt2, lp2, pre ++ [(lp2, none, none)], ?_, ?_, hstop2, hlink,
        (fun e he => hhead e he), ?_, ?_⟩
      · intro g hg
        unfold solve
        exact solve_aux_mono hr g hg
      · unfold shortest_path
        rw [heq]
      · rw [List.getLast?_concat]
      · intro n q hq hstopq
        have hdn := hminim n q hq hstopq
        have hplen : (pre ++ [(lp2, (none : Option Nat), (none : Option Move))]).length
            = d + 1 := by
          rw [List.length_append, hlen]
          rfl
        omega

/-- Witness for C1: the walled two-cell corridor; the terminal `[[0]]` is
reachable in one move, the solver succeeds, and the reconstructed path is
optimal. -/
theorem c1_witness :
    ∃ (fuel : Nat) (vt : VisitedTree) (lp : GPos) (path : List PathEntry),
      (∀ g, fuel ≤ g →
        solve (mkBoard [5]) (some (fun p => decide (p = [[0]]))) none false [[1]] g =
          some (true, vt, some lp)) ∧
      shortest_path vt lp = some path ∧
      decide (lp = [[0]]) = true ∧
      path_linked (mkBoard [5]) path ∧
      (∀ e ∈ path.head?, e.1 = [[1]]) ∧
      path.getLast? = some (lp, none, none) ∧
      (∀ n q, ReachN (mkBoard [5]) [[1]] n q → decide (q = [[0]]) = true →
        path.length - 1 ≤ n) :=
  c1_bfs_optimality [5] [[1]] (fun p => decide (p = [[0]])) (by decide)
    ⟨1, [[0]], ⟨[[1]], rfl, 0, by decide, Move.nw, by decide⟩, by decide⟩

/-! ## Claim C5: forced-passage positions -/

theorem cfpp_aux_cons (ap : List GPos) (tree : HTree) (fuel : Nat) (pos : GPos)
    (acc : List GPos) :
    cfpp_aux ap tree (fuel + 1) (some pos) acc =
      match htGet tree pos with
      | none => none
      | some info =>
        cfpp_aux ap tree fuel info.1 (if pos ∈ ap then pos :: acc else acc) := rfl

/-- Soundness of the forced-passage walk: every collected position is
articulation-marked and lies on the walked parent chain (or was already
accumulated). -/
theorem cfpp_aux_spec {ap : List GPos} {tree : HTree} :
    ∀ {fuel : Nat} {cur : Option GPos} {acc res : List GPos},
      cfpp_aux ap tree fuel cur acc = some res →
      ∀ p ∈ res, (p ∈ ap ∧ HTPath tree cur p) ∨ p ∈ acc := by
  intro fuel
  induction fuel with
  | zero => intro cur acc res h; cases h
  | succ fuel ih =>
    intro cur acc res h p hp
    cases cur with
    | none =>
      injection h with h
      subst h
      exact Or.inr hp
    | some pos =>
      rw [cfpp_aux_cons] at h
      rcases hg : htGet tree pos with _ | info
      · rw [hg] at h; cases h
      · rw [hg] at h
        have h2 : cfpp_aux ap tree fuel info.1
            (if pos ∈ ap then pos :: acc else acc) = some res := h
        rcases ih h2 p hp with ⟨hap, hpath⟩ | hmem
        · exact Or.inl ⟨hap, HTPath.up hg hpath⟩
        · by_cases hin : pos ∈ ap
          · rw [if_pos hin] at hmem
            rcases List.mem_cons.mp hmem with rfl | hmem2
            · exact Or.inl ⟨hin, HTPath.here p⟩
            · exact Or.inr hmem2
          · rw [if_neg hin] at hmem
            exact Or.inr hmem

/-- C5 (amended): every position reported by
`compute_forced_passage_positions` is marked as an articulation point by the
`hopcroft_tarjan` pass and lies on the parent chain of the *depth-first* tree
from the last visited position to the root.  (The original claim's part (b)
— membership in the breadth-first `shortest_path` — is refuted by
`c5_counterexample`.) -/
theorem c5_amended_forced_on_dfs_chain (b : Board) (start last : GPos)
    (fuel : Nat) (ap : List GPos) (tree : HTree) (fp : List GPos)
    (hht : hopcroft_tarjan b start fuel = some (ap, tree))
    (hfp : compute_forced_passage_positions b start last fuel = some fp) :
    ∀ p ∈ fp, p ∈ ap ∧ HTPath tree (some last) p := by
  unfold compute_forced_passage_positions at hfp
  rw [hht] at hfp
  have h2 : cfpp_aux ap tree fuel (some last) [] = some fp := hfp
  intro p hp
  rcases cfpp_aux_spec h2 p hp with h3 | h3
  · exact h3
  · cases h3

/-- C5 counterexample: on the walled five-cell region `{6, 9, 10, 13, 16}`
with single tile at cell 6 and target cell 10, the breadth-first solve
succeeds and reconstructs the two-entry shortest path `[[6]] → [[10]]`, yet
`compute_forced_passage_positions` reports `[[13]]` — a position *not* on the
reconstructed shortest path (the walk follows the depth-first tree of
`hopcroft_tarjan`, which reached `[[10]]` via `[[9]]` and `[[13]]`). -/
theorem c5_counterexample :
    solve c5B (some c5stop) none false [[6]] 20 = some (true, c5vt, some [[10]]) ∧
    ∃ fp path,
      compute_forced_passage_positions c5B [[6]] [[10]] 40 = some fp ∧
      shortest_path c5vt [[10]] = some path ∧
      [[13]] ∈ fp ∧ [[13]] ∉ path.map Prod.fst := by
  refine ⟨by decide, (compute_forced_passage_positions c5B [[6]] [[10]] 40).getD [],
    (shortest_path c5vt [[10]]).getD [], by decide, by decide, by decide, by decide⟩

/-- Witness for the amended C5 theorem on the counterexample board: the
reported position `[[13]]` is articulation-marked and on the depth-first
parent chain from `[[10]]`. -/
theorem c5_witness :
    [[13]] ∈ c5ht.1 ∧ HTPath c5ht.2 (some [[10]]) [[13]] :=
  c5_amended_forced_on_dfs_chain c5B [[6]] [[10]] 40 c5ht.1 c5ht.2 [[[13]]]
    (by decide) (by decide) [[13]] (by decide)

end Antivirus
